import Mathlib

/-!
Verification of the `notanumber` fp16 steganographic codec
(`src/notanumber/core.py`).

Byte buffers are modelled as `List Nat` (each element intended < 256); a
16-bit code unit is a `Nat` (< 65536 when produced by this codec).  Encoded
streams are byte lists: consecutive little-endian 16-bit units, exactly as
`struct.pack("<H", ...)` produces.  Fallible operations return
`Except Err (List Nat)` where `Err` mirrors the error taxonomy of the spec
(each Python `ValueError` message corresponds to one constructor).
-/

/-- Error taxonomy of the codec (spec section 7); each constructor corresponds
to one distinct `ValueError` raise site in `core.py`. -/
inductive Err where
  | inputTooLarge
  | malformedLength
  | impureZero
  | notInfinity
  | unexpectedNan
  | notQuietNan
  | notSubnormal
  | wrongSign
  | corruptedHeader
  | unknownScheme
  | insufficientData
  | unrecognizedPattern
  deriving DecidableEq

/-- `SIGN_BIT = 0x8000` -/
def SIGN_BIT : Nat := 0x8000

/-- `EXPONENT_MASK = 0x7C00` -/
def EXPONENT_MASK : Nat := 0x7C00

/-- `MANTISSA_MASK = 0x03FF` -/
def MANTISSA_MASK : Nat := 0x03FF

/-- `INF_BITS = 0x7C00` -/
def INF_BITS : Nat := 0x7C00

/-- `NAN_QUIET = 0x7E00` -/
def NAN_QUIET : Nat := 0x7E00

/-- `PAYLOAD_MASK = 0x01FF` -/
def PAYLOAD_MASK : Nat := 0x01FF

/-- `MAX_INPUT_SIZE = 100 * 1024 * 1024` -/
def MAX_INPUT_SIZE : Nat := 100 * 1024 * 1024

/-- `struct.pack("<H", v)`: two little-endian bytes. -/
def pack16le (v : Nat) : List Nat := [v % 256, v / 256]

/-- Serialize a list of 16-bit units to bytes (sequential `ret.extend`). -/
def pack16les : List Nat → List Nat
  | [] => []
  | u :: rest => pack16le u ++ pack16les rest

/-- Parse consecutive `struct.unpack("<H", data[i:i+2])` values from a
byte list (used after the even-length check). -/
def unpack16le : List Nat → List Nat
  | lo :: hi :: rest => (lo + 256 * hi) :: unpack16le rest
  | _ => []

/-- `struct.pack("<I", n)`: four little-endian bytes. -/
def le32 (n : Nat) : List Nat :=
  [n % 256, n / 256 % 256, n / 65536 % 256, n / 16777216 % 256]

/-- `struct.unpack("<I", bs[:4])`: value of the first four bytes,
little-endian. -/
def le32dec (bs : List Nat) : Nat :=
  bs.getD 0 0 + 256 * bs.getD 1 0 + 65536 * bs.getD 2 0 + 16777216 * bs.getD 3 0

/-- Bit `i` of a byte buffer, LSB-first within each byte; zero past the end
(`data[i // 8] & (1 << (i % 8))` guarded by `i // 8 < len(data)`). -/
def getBit (buf : List Nat) (i : Nat) : Bool :=
  (buf.getD (i / 8) 0).testBit (i % 8)

/-- Collect `w` bits starting at bit offset `off` of `buf` into a value,
bit `j` of the group taken from buffer bit `off + j` (the encoder's
`bits |= 1 << j` gathering loop, zero-filled past the end of the buffer). -/
def readBits (buf : List Nat) (off : Nat) : Nat → Nat
  | 0 => 0
  | w + 1 => readBits buf off w ||| (if getBit buf (off + w) then 1 <<< w else 0)

/-- `result[pos // 8] |= 1 << (pos % 8)`. -/
def setBuf (result : List Nat) (pos : Nat) : List Nat :=
  result.set (pos / 8) (result.getD (pos / 8) 0 ||| (1 <<< (pos % 8)))

/-! ## The Zero codec (`to_zero` / `from_zero`) -/

/-- The eight code units `to_zero` emits for one plaintext byte:
`0x8000` (negative zero) for a 1 bit, `0x0000` for a 0 bit, bits LSB-first. -/
def zeroUnitsOfByte (b : Nat) : List Nat :=
  (List.range 8).map (fun j => if b.testBit j then SIGN_BIT else 0)

/-- Unit sequence emitted by `to_zero` for a whole plaintext. -/
def to_zeroUnits : List Nat → List Nat
  | [] => []
  | b :: rest => zeroUnitsOfByte b ++ to_zeroUnits rest

/-- `to_zero`: size check, then one signed-zero unit per plaintext bit. -/
def to_zero (data : List Nat) : Except Err (List Nat) :=
  if data.length > MAX_INPUT_SIZE then .error .inputTooLarge
  else .ok (pack16les (to_zeroUnits data))

/-- The inner reconstruction loop of `from_zero` over one group of units:
`byte |= 1 << j` for a `0x8000` unit, error on anything other than
`0x0000`/`0x8000`. -/
def zeroBits : List Nat → Nat → Nat → Except Err Nat
  | [], _, acc => .ok acc
  | val :: rest, j, acc =>
    if val = SIGN_BIT then zeroBits rest (j + 1) (acc ||| (1 <<< j))
    else if val ≠ 0 then .error .impureZero
    else zeroBits rest (j + 1) acc

/-- The `for i in range(0, num_values, 8)` loop of `from_zero`: `g` groups of
8 units, each reconstructing one output byte. -/
def from_zeroGroups : Nat → List Nat → Except Err (List Nat)
  | 0, _ => .ok []
  | g + 1, units =>
    match zeroBits (units.take 8) 0 0 with
    | .error e => .error e
    | .ok byte =>
      match from_zeroGroups g (units.drop 8) with
      | .error e => .error e
      | .ok rest => .ok (byte :: rest)

/-- `from_zero`: even byte count, unit count divisible by 8, then groupwise
reconstruction. -/
def from_zero (data : List Nat) : Except Err (List Nat) :=
  if data.length % 2 ≠ 0 then .error .malformedLength
  else if (data.length / 2) % 8 ≠ 0 then .error .malformedLength
  else from_zeroGroups (data.length / 2 / 8) (unpack16le data)

/-! ## The Inf codec (`to_inf` / `from_inf`) -/

/-- The eight code units `to_inf` emits for one plaintext byte:
`0xFC00` (negative infinity) for a 1 bit, `0x7C00` for a 0 bit. -/
def infUnitsOfByte (b : Nat) : List Nat :=
  (List.range 8).map (fun j => if b.testBit j then INF_BITS ||| SIGN_BIT else INF_BITS)

/-- Unit sequence emitted by `to_inf` for a whole plaintext. -/
def to_infUnits : List Nat → List Nat
  | [] => []
  | b :: rest => infUnitsOfByte b ++ to_infUnits rest

/-- `to_inf`: size check, then one signed-infinity unit per plaintext bit. -/
def to_inf (data : List Nat) : Except Err (List Nat) :=
  if data.length > MAX_INPUT_SIZE then .error .inputTooLarge
  else .ok (pack16les (to_infUnits data))

/-- Inner loop of `from_inf` over one group: exponent must be all-ones,
mantissa must be zero, sign bit contributes the data bit. -/
def infBits : List Nat → Nat → Nat → Except Err Nat
  | [], _, acc => .ok acc
  | val :: rest, j, acc =>
    if val &&& EXPONENT_MASK ≠ INF_BITS then .error .notInfinity
    else if val &&& MANTISSA_MASK ≠ 0 then .error .unexpectedNan
    else if val &&& SIGN_BIT ≠ 0 then infBits rest (j + 1) (acc ||| (1 <<< j))
    else infBits rest (j + 1) acc

/-- The grouped reconstruction loop of `from_inf`. -/
def from_infGroups : Nat → List Nat → Except Err (List Nat)
  | 0, _ => .ok []
  | g + 1, units =>
    match infBits (units.take 8) 0 0 with
    | .error e => .error e
    | .ok byte =>
      match from_infGroups g (units.drop 8) with
      | .error e => .error e
      | .ok rest => .ok (byte :: rest)

/-- `from_inf`: same length checks as `from_zero`, then groupwise
reconstruction. -/
def from_inf (data : List Nat) : Except Err (List Nat) :=
  if data.length % 2 ≠ 0 then .error .malformedLength
  else if (data.length / 2) % 8 ≠ 0 then .error .malformedLength
  else from_infGroups (data.length / 2 / 8) (unpack16le data)

/-! ## The Nan codec (`to_nan` / `from_nan`) -/

/-- Unit sequence emitted by `to_nan` for the length-framed buffer `dwl`
(`data_with_length`): one unit per 9-bit group, `0x7E00 | bits`. -/
def to_nanUnits (dwl : List Nat) : List Nat :=
  (List.range ((8 * dwl.length + 8) / 9)).map (fun k => NAN_QUIET ||| readBits dwl (9 * k) 9)

/-- `to_nan`: size check, prepend the 4-byte little-endian length, pack
9 bits per quiet-NaN unit. -/
def to_nan (data : List Nat) : Except Err (List Nat) :=
  if data.length > MAX_INPUT_SIZE then .error .inputTooLarge
  else .ok (pack16les (to_nanUnits (le32 data.length ++ data)))

/-- The `for j in range(9)` unpacking loop of `from_nan`: write payload bit
`j` at `bit_pos` and advance, as long as `bit_pos < total_bits`. -/
def nanInner (payload totalBits : Nat) (j : Nat) (result : List Nat) (bitPos : Nat) :
    List Nat × Nat :=
  if h : j < 9 then
    if bitPos < totalBits then
      nanInner payload totalBits (j + 1)
        (if payload.testBit j then setBuf result bitPos else result) (bitPos + 1)
    else nanInner payload totalBits (j + 1) result bitPos
  else (result, bitPos)
termination_by 9 - j

/-- The per-unit loop of `from_nan`: each unit must have the quiet-NaN top
bits `0x7E00`; its low 9 bits are appended to the recovered bit stream. -/
def from_nanLoop (totalBits : Nat) : List Nat → List Nat → Nat → Except Err (List Nat)
  | [], result, _ => .ok result
  | val :: rest, result, bitPos =>
    if val &&& 0x7E00 ≠ 0x7E00 then .error .notQuietNan
    else
      let st := nanInner (val &&& PAYLOAD_MASK) totalBits 0 result bitPos
      from_nanLoop totalBits rest st.1 st.2

/-- Trailing length-header extraction shared verbatim by `from_nan` and
`from_subnormal`: at least 4 recovered bytes, little-endian length `L`,
empty result for `L = 0`, else the slice `[4, 4+L)` when it fits. -/
def unframe (result : List Nat) : Except Err (List Nat) :=
  if 4 ≤ result.length then
    if le32dec (result.take 4) = 0 then .ok []
    else if 4 + le32dec (result.take 4) ≤ result.length then
      .ok ((result.drop 4).take (le32dec (result.take 4)))
    else .error .corruptedHeader
  else .error .corruptedHeader

/-- `from_nan`: even byte count, unpack 9 bits per valid unit into a
zero-initialized buffer of `ceil(total_bits / 8)` bytes, then unframe. -/
def from_nan (data : List Nat) : Except Err (List Nat) :=
  if data.length % 2 ≠ 0 then .error .malformedLength
  else
    match from_nanLoop ((data.length / 2) * 9) (unpack16le data)
        (List.replicate (((data.length / 2) * 9 + 7) / 8) 0) 0 with
    | .error e => .error e
    | .ok result => unframe result

/-! ## The Subnormal codec (`to_subnormal` / `from_subnormal`) -/

/-- Unit sequence emitted by `to_subnormal` for the length-framed buffer:
one unit per 10-bit group, the group value stored directly as the mantissa. -/
def to_subUnits (dwl : List Nat) : List Nat :=
  (List.range ((8 * dwl.length + 9) / 10)).map (fun k => readBits dwl (10 * k) 10)

/-- `to_subnormal`: size check, length framing, pack 10 bits per unit. -/
def to_subnormal (data : List Nat) : Except Err (List Nat) :=
  if data.length > MAX_INPUT_SIZE then .error .inputTooLarge
  else .ok (pack16les (to_subUnits (le32 data.length ++ data)))

/-- The `for j in range(10)` unpacking loop of `from_subnormal`: the write is
guarded by `byte_idx < len(result)`, `bit_pos` always advances. -/
def subInner (mantissa : Nat) (j : Nat) (result : List Nat) (bitPos : Nat) :
    List Nat × Nat :=
  if h : j < 10 then
    subInner mantissa (j + 1)
      (if bitPos / 8 < result.length then
        (if mantissa.testBit j then setBuf result bitPos else result)
      else result) (bitPos + 1)
  else (result, bitPos)
termination_by 10 - j

/-- The per-unit loop of `from_subnormal`: zero exponent field (else
`NotSubnormal`), zero sign bit (else `WrongSign`); the mantissa is the
10-bit payload. -/
def from_subLoop : List Nat → List Nat → Nat → Except Err (List Nat)
  | [], result, _ => .ok result
  | val :: rest, result, bitPos =>
    if val &&& EXPONENT_MASK ≠ 0 then .error .notSubnormal
    else if val &&& SIGN_BIT ≠ 0 then .error .wrongSign
    else
      let st := subInner (val &&& MANTISSA_MASK) 0 result bitPos
      from_subLoop rest st.1 st.2

/-- `from_subnormal`: even byte count, unpack 10 bits per valid unit, then
unframe. -/
def from_subnormal (data : List Nat) : Except Err (List Nat) :=
  if data.length % 2 ≠ 0 then .error .malformedLength
  else
    match from_subLoop (unpack16le data)
        (List.replicate (((data.length / 2) * 10 + 7) / 8) 0) 0 with
    | .error e => .error e
    | .ok result => unframe result

/-! ## Facade: `encode`, `decode`, auto-detection -/

/-- `encode(data, method)`: unknown scheme check, then dispatch; each codec
performs its own `MAX_INPUT_SIZE` check first. -/
def encode (data : List Nat) (method : String) : Except Err (List Nat) :=
  if method = "zero" then to_zero data
  else if method = "inf" then to_inf data
  else if method = "nan" then to_nan data
  else if method = "subnormal" then to_subnormal data
  else .error .unknownScheme

/-- First code unit of a stream (`struct.unpack("<H", data[:2])`, used after
the two-byte minimum check). -/
def firstUnit (data : List Nat) : Nat :=
  data.getD 0 0 + 256 * data.getD 1 0

/-- Scheme classification of the first code unit, rules tried in the fixed
order Zero, Inf, Nan, Subnormal. -/
def detect (first : Nat) : Except Err String :=
  if first = 0 ∨ first = SIGN_BIT then .ok "zero"
  else if first &&& EXPONENT_MASK = INF_BITS ∧ first &&& MANTISSA_MASK = 0 then .ok "inf"
  else if first &&& 0x7E00 = 0x7E00 then .ok "nan"
  else if first &&& EXPONENT_MASK = 0 then .ok "subnormal"
  else .error .unrecognizedPattern

/-- Decoder dispatch by scheme name. -/
def decodeDispatch (data : List Nat) (method : String) : Except Err (List Nat) :=
  if method = "zero" then from_zero data
  else if method = "inf" then from_inf data
  else if method = "nan" then from_nan data
  else if method = "subnormal" then from_subnormal data
  else .error .unknownScheme

/-- `decode(data, method)`: `auto` needs at least one full unit, resolves the
scheme from the first unit, then dispatches. -/
def decode (data : List Nat) (method : String) : Except Err (List Nat) :=
  if method = "auto" then
    if data.length < 2 then .error .insufficientData
    else
      match detect (firstUnit data) with
      | .error e => .error e
      | .ok m => decodeDispatch data m
  else decodeDispatch data method

/-! ## Basic serialization lemmas -/

theorem pack16les_length (us : List Nat) : (pack16les us).length = 2 * us.length := by
  induction us with
  | nil => rfl
  | cons u rest ih => simp [pack16les, pack16le, ih]; omega

theorem pack16les_append (a b : List Nat) :
    pack16les (a ++ b) = pack16les a ++ pack16les b := by
  induction a with
  | nil => rfl
  | cons u rest ih => simp [pack16les, ih]

theorem unpack16le_pack16les (us : List Nat) : unpack16le (pack16les us) = us := by
  induction us with
  | nil => rfl
  | cons u rest ih =>
    show unpack16le (u % 256 :: u / 256 :: pack16les rest) = u :: rest
    rw [unpack16le, ih]
    congr 1
    omega

theorem unpack16le_length (data : List Nat) :
    (unpack16le data).length = data.length / 2 := by
  induction data using unpack16le.induct with
  | case1 lo hi rest ih => simp [unpack16le, ih]; omega
  | case2 data h =>
    match data, h with
    | [], _ => rfl
    | [x], _ => simp [unpack16le]
    | lo :: hi :: rest, h => exact absurd rfl (h lo hi rest)

/-! ## `readBits` lemmas -/

theorem readBits_testBit (buf : List Nat) (off w i : Nat) :
    (readBits buf off w).testBit i = (decide (i < w) && getBit buf (off + i)) := by
  induction w with
  | zero => simp [readBits]
  | succ w ih =>
    rw [readBits, Nat.testBit_or, ih]
    have hbit : (if getBit buf (off + w) then 1 <<< w else 0).testBit i
        = (decide (i = w) && getBit buf (off + w)) := by
      by_cases hg : getBit buf (off + w)
      · rw [if_pos hg, Nat.one_shiftLeft, Nat.testBit_two_pow]
        simp [hg, eq_comm]
      · rw [if_neg hg]
        simp [hg, Nat.zero_testBit]
    rw [hbit]
    by_cases h1 : i < w
    · simp [h1, show i < w + 1 by omega, show i ≠ w by omega]
    · by_cases h2 : i = w
      · subst h2
        simp [h1, Nat.lt_succ_self]
      · simp [h1, h2, show ¬ i < w + 1 by omega]

theorem readBits_lt (buf : List Nat) (off w : Nat) : readBits buf off w < 2 ^ w := by
  induction w with
  | zero => simp [readBits]
  | succ w ih =>
    rw [readBits]
    apply Nat.or_lt_two_pow
    · exact lt_of_lt_of_le ih (Nat.pow_le_pow_right (by norm_num) (by omega))
    · split
      · rw [Nat.one_shiftLeft]
        exact Nat.pow_lt_pow_right (by norm_num) (by omega)
      · exact Nat.pos_pow_of_pos _ (by norm_num)

/-! ## `setBuf` lemmas -/

theorem setBuf_length (result : List Nat) (pos : Nat) :
    (setBuf result pos).length = result.length := by
  simp [setBuf]

theorem getD_set_eq (l : List Nat) (i : Nat) (v : Nat) (h : i < l.length) :
    (l.set i v).getD i 0 = v := by
  simp [List.getD_eq_getElem?_getD, List.getElem?_set_self h]

theorem getD_set_ne (l : List Nat) (i j : Nat) (v : Nat) (h : i ≠ j) :
    (l.set i v).getD j 0 = l.getD j 0 := by
  simp [List.getD_eq_getElem?_getD, List.getElem?_set_ne h]

theorem getBit_setBuf (result : List Nat) (pos q : Nat) (h : pos / 8 < result.length) :
    getBit (setBuf result pos) q = (getBit result q || decide (q = pos)) := by
  unfold getBit setBuf
  by_cases hq : q / 8 = pos / 8
  · rw [hq, getD_set_eq _ _ _ h, Nat.testBit_or]
    by_cases he : q = pos
    · subst he
      simp [Nat.one_shiftLeft, Nat.testBit_two_pow_self]
    · have hne : pos % 8 ≠ q % 8 := by omega
      rw [Nat.one_shiftLeft, Nat.testBit_two_pow_of_ne hne]
      simp [he]
  · have hne : pos / 8 ≠ q / 8 := fun hh => hq hh.symm
    rw [getD_set_ne _ _ _ _ hne]
    have hqp : q ≠ pos := by omega
    simp [hqp]

theorem setBuf_bytes_lt (result : List Nat) (pos : Nat)
    (hb : ∀ b ∈ result, b < 256) : ∀ b ∈ setBuf result pos, b < 256 := by
  intro b hmem
  rcases List.mem_or_eq_of_mem_set hmem with h | h
  · exact hb b h
  · subst h
    apply Nat.or_lt_two_pow (n := 8)
    · by_cases hlt : pos / 8 < result.length
      · have := List.getD_eq_getElem?_getD result (pos / 8) 0
        rw [this, List.getElem?_eq_getElem hlt]
        exact hb _ (List.getElem_mem hlt)
      · rw [List.getD_eq_getElem?_getD, List.getElem?_eq_none (by omega)]
        simp
    · rw [Nat.one_shiftLeft]
      exact Nat.pow_lt_pow_right (by norm_num) (by omega)

theorem getBit_replicate_zero (n q : Nat) : getBit (List.replicate n 0) q = false := by
  unfold getBit
  by_cases h : q / 8 < n
  · rw [List.getD_eq_getElem?_getD, List.getElem?_eq_getElem (by simpa using h)]
    simp
  · rw [List.getD_eq_getElem?_getD, List.getElem?_eq_none (by simpa using h)]
    simp

/-! ## Inner unpacking loop characterizations -/

theorem nanInner_spec (payload totalBits : Nat) :
    ∀ k j result bitPos, j + k = 9 →
    bitPos + k ≤ totalBits → totalBits ≤ 8 * result.length →
    ∃ res, nanInner payload totalBits j result bitPos = (res, bitPos + k) ∧
      res.length = result.length ∧
      ((∀ b ∈ result, b < 256) → ∀ b ∈ res, b < 256) ∧
      ∀ q, getBit res q =
        (getBit result q ||
          (decide (bitPos ≤ q ∧ q < bitPos + k) && payload.testBit (j + (q - bitPos)))) := by
  intro k
  induction k with
  | zero =>
    intro j result bitPos hj hbp htb
    refine ⟨result, ?_, rfl, fun hb => hb, fun q => ?_⟩
    · rw [nanInner, dif_neg (by omega)]
      simp
    · simp [show ¬ (bitPos ≤ q ∧ q < bitPos + 0) by omega]
  | succ k ih =>
    intro j result bitPos hj hbp htb
    have hj9 : j < 9 := by omega
    have hlt : bitPos < totalBits := by omega
    have hpos : bitPos / 8 < result.length := by omega
    rw [nanInner, dif_pos hj9, if_pos hlt]
    set result1 := if payload.testBit j then setBuf result bitPos else result with hr1
    have hlen1 : result1.length = result.length := by
      rw [hr1]; split <;> simp [setBuf_length]
    have hbits1 : ∀ q, getBit result1 q =
        (getBit result q || (decide (q = bitPos) && payload.testBit j)) := by
      intro q
      rw [hr1]
      by_cases hp : payload.testBit j
      · rw [if_pos hp, getBit_setBuf _ _ _ hpos]
        simp [hp]
      · rw [if_neg hp]
        simp [hp]
    obtain ⟨res, heq, hlen, hbnd, hbits⟩ :=
      ih (j + 1) result1 (bitPos + 1) (by omega) (by omega) (by rw [hlen1]; omega)
    refine ⟨res, ?_, by rw [hlen, hlen1], ?_, ?_⟩
    · rw [heq]; congr 1; omega
    · intro hb
      apply hbnd
      rw [hr1]
      split
      · exact setBuf_bytes_lt _ _ hb
      · exact hb
    · intro q
      rw [hbits q, hbits1 q]
      by_cases hq1 : q = bitPos
      · subst hq1
        simp [show ¬ (q + 1 ≤ q ∧ q < q + 1 + k) by omega,
              show q ≤ q ∧ q < q + (k + 1) by omega]
      · by_cases hq2 : bitPos + 1 ≤ q ∧ q < bitPos + 1 + k
        · have hidx : j + 1 + (q - (bitPos + 1)) = j + (q - bitPos) := by omega
          simp [hq1, hq2, hidx, show bitPos ≤ q ∧ q < bitPos + (k + 1) by omega]
        · simp [hq1, hq2, show ¬ (bitPos ≤ q ∧ q < bitPos + (k + 1)) by omega]

theorem subInner_spec (mantissa : Nat) :
    ∀ k j result bitPos, j + k = 10 →
    bitPos + k ≤ 8 * result.length →
    ∃ res, subInner mantissa j result bitPos = (res, bitPos + k) ∧
      res.length = result.length ∧
      ((∀ b ∈ result, b < 256) → ∀ b ∈ res, b < 256) ∧
      ∀ q, getBit res q =
        (getBit result q ||
          (decide (bitPos ≤ q ∧ q < bitPos + k) && mantissa.testBit (j + (q - bitPos)))) := by
  intro k
  induction k with
  | zero =>
    intro j result bitPos hj hbp
    refine ⟨result, ?_, rfl, fun hb => hb, fun q => ?_⟩
    · rw [subInner, dif_neg (by omega)]
      simp
    · simp [show ¬ (bitPos ≤ q ∧ q < bitPos + 0) by omega]
  | succ k ih =>
    intro j result bitPos hj hbp
    have hj10 : j < 10 := by omega
    have hpos : bitPos / 8 < result.length := by omega
    rw [subInner, dif_pos hj10, if_pos hpos]
    set result1 := if mantissa.testBit j then setBuf result bitPos else result with hr1
    have hlen1 : result1.length = result.length := by
      rw [hr1]; split <;> simp [setBuf_length]
    have hbits1 : ∀ q, getBit result1 q =
        (getBit result q || (decide (q = bitPos) && mantissa.testBit j)) := by
      intro q
      rw [hr1]
      by_cases hp : mantissa.testBit j
      · rw [if_pos hp, getBit_setBuf _ _ _ hpos]
        simp [hp]
      · rw [if_neg hp]
        simp [hp]
    obtain ⟨res, heq, hlen, hbnd, hbits⟩ :=
      ih (j + 1) result1 (bitPos + 1) (by omega) (by rw [hlen1]; omega)
    refine ⟨res, ?_, by rw [hlen, hlen1], ?_, ?_⟩
    · rw [heq]; congr 1; omega
    · intro hb
      apply hbnd
      rw [hr1]
      split
      · exact setBuf_bytes_lt _ _ hb
      · exact hb
    · intro q
      rw [hbits q, hbits1 q]
      by_cases hq1 : q = bitPos
      · subst hq1
        simp [show ¬ (q + 1 ≤ q ∧ q < q + 1 + k) by omega,
              show q ≤ q ∧ q < q + (k + 1) by omega]
      · by_cases hq2 : bitPos + 1 ≤ q ∧ q < bitPos + 1 + k
        · have hidx : j + 1 + (q - (bitPos + 1)) = j + (q - bitPos) := by omega
          simp [hq1, hq2, hidx, show bitPos ≤ q ∧ q < bitPos + (k + 1) by omega]
        · simp [hq1, hq2, show ¬ (bitPos ≤ q ∧ q < bitPos + (k + 1)) by omega]

/-! ## Per-unit decode loop characterizations -/

theorem from_nanLoop_spec (totalBits : Nat) :
    ∀ units result bitPos, (∀ u ∈ units, u &&& 0x7E00 = 0x7E00) →
    bitPos + 9 * units.length ≤ totalBits → totalBits ≤ 8 * result.length →
    ∃ res, from_nanLoop totalBits units result bitPos = .ok res ∧
      res.length = result.length ∧
      ((∀ b ∈ result, b < 256) → ∀ b ∈ res, b < 256) ∧
      ∀ q, getBit res q =
        (getBit result q ||
          (decide (bitPos ≤ q ∧ q < bitPos + 9 * units.length) &&
            ((units.getD ((q - bitPos) / 9) 0) &&& PAYLOAD_MASK).testBit ((q - bitPos) % 9))) := by
  intro units
  induction units with
  | nil =>
    intro result bitPos hval hbp htb
    refine ⟨result, rfl, rfl, fun hb => hb, fun q => ?_⟩
    have hno : ¬ (bitPos ≤ q ∧ q < bitPos + 9 * ([] : List Nat).length) := by
      simp
    simp [hno]
  | cons val rest ih =>
    intro result bitPos hval hbp htb
    have hv : val &&& 0x7E00 = 0x7E00 := hval val (by simp)
    obtain ⟨res1, heq1, hlen1, hbnd1, hbits1⟩ :=
      nanInner_spec (val &&& PAYLOAD_MASK) totalBits 9 0 result bitPos (by omega)
        (by simp at hbp; omega) htb
    obtain ⟨res, heq, hlen, hbnd, hbits⟩ :=
      ih res1 (bitPos + 9) (fun u hu => hval u (by simp [hu]))
        (by simp at hbp ⊢; rw [hlen1] at *; omega) (by rw [hlen1]; exact htb)
    refine ⟨res, ?_, by rw [hlen, hlen1], fun hb => hbnd (hbnd1 hb), fun q => ?_⟩
    · simp only [from_nanLoop]
      rw [if_neg (by simp [hv]), heq1]
      exact heq
    · rw [hbits q, hbits1 q]
      by_cases hq0 : bitPos ≤ q
      · by_cases hq1 : q < bitPos + 9
        · have hd : (q - bitPos) / 9 = 0 := by omega
          have hm : (q - bitPos) % 9 = q - bitPos := by omega
          have hno : ¬ (bitPos + 9 ≤ q ∧ q < bitPos + 9 + 9 * rest.length) := by omega
          simp [hno, hd, hm, hq0, hq1, show q < bitPos + 9 * (rest.length + 1) by omega]
        · by_cases hq2 : q < bitPos + 9 + 9 * rest.length
          · have h9 : 9 ≤ q - bitPos := by omega
            have hd : (q - bitPos) / 9 = (q - (bitPos + 9)) / 9 + 1 := by omega
            have hm : (q - bitPos) % 9 = (q - (bitPos + 9)) % 9 := by omega
            have hyes2 : bitPos + 9 ≤ q ∧ q < bitPos + 9 + 9 * rest.length := by omega
            simp [hyes2, hq0, hq1, hd, hm, List.getD_cons_succ,
                  show q < bitPos + 9 * (rest.length + 1) by omega]
          · have hno1 : ¬ (bitPos ≤ q ∧ q < bitPos + 9) := by omega
            have hno2 : ¬ (bitPos + 9 ≤ q ∧ q < bitPos + 9 + 9 * rest.length) := by omega
            simp [hno1, hno2]
            intro _ h2
            exact absurd h2 (by omega)
      · have hno1 : ¬ (bitPos ≤ q ∧ q < bitPos + 9) := by omega
        have hno2 : ¬ (bitPos + 9 ≤ q ∧ q < bitPos + 9 + 9 * rest.length) := by omega
        simp [hno1, hno2]
        intro h1
        exact absurd h1 hq0

theorem from_subLoop_spec :
    ∀ units result bitPos,
    (∀ u ∈ units, u &&& EXPONENT_MASK = 0 ∧ u &&& SIGN_BIT = 0) →
    bitPos + 10 * units.length ≤ 8 * result.length →
    ∃ res, from_subLoop units result bitPos = .ok res ∧
      res.length = result.length ∧
      ((∀ b ∈ result, b < 256) → ∀ b ∈ res, b < 256) ∧
      ∀ q, getBit res q =
        (getBit result q ||
          (decide (bitPos ≤ q ∧ q < bitPos + 10 * units.length) &&
            ((units.getD ((q - bitPos) / 10) 0) &&& MANTISSA_MASK).testBit ((q - bitPos) % 10))) := by
  intro units
  induction units with
  | nil =>
    intro result bitPos hval hbp
    refine ⟨result, rfl, rfl, fun hb => hb, fun q => ?_⟩
    have hno : ¬ (bitPos ≤ q ∧ q < bitPos + 10 * ([] : List Nat).length) := by
      simp
    simp [hno]
  | cons val rest ih =>
    intro result bitPos hval hbp
    have hv := hval val (by simp)
    obtain ⟨res1, heq1, hlen1, hbnd1, hbits1⟩ :=
      subInner_spec (val &&& MANTISSA_MASK) 10 0 result bitPos (by omega)
        (by simp at hbp; omega)
    obtain ⟨res, heq, hlen, hbnd, hbits⟩ :=
      ih res1 (bitPos + 10) (fun u hu => hval u (by simp [hu]))
        (by simp at hbp ⊢; rw [hlen1]; omega)
    refine ⟨res, ?_, by rw [hlen, hlen1], fun hb => hbnd (hbnd1 hb), fun q => ?_⟩
    · simp only [from_subLoop]
      rw [if_neg (by simp [hv.1]), if_neg (by simp [hv.2]), heq1]
      exact heq
    · rw [hbits q, hbits1 q]
      by_cases hq0 : bitPos ≤ q
      · by_cases hq1 : q < bitPos + 10
        · have hd : (q - bitPos) / 10 = 0 := by omega
          have hm : (q - bitPos) % 10 = q - bitPos := by omega
          have hno : ¬ (bitPos + 10 ≤ q ∧ q < bitPos + 10 + 10 * rest.length) := by omega
          simp [hno, hd, hm, hq0, hq1, show q < bitPos + 10 * (rest.length + 1) by omega]
        · by_cases hq2 : q < bitPos + 10 + 10 * rest.length
          · have hd : (q - bitPos) / 10 = (q - (bitPos + 10)) / 10 + 1 := by omega
            have hm : (q - bitPos) % 10 = (q - (bitPos + 10)) % 10 := by omega
            have hyes2 : bitPos + 10 ≤ q ∧ q < bitPos + 10 + 10 * rest.length := by omega
            simp [hyes2, hq0, hq1, hd, hm, List.getD_cons_succ,
                  show q < bitPos + 10 * (rest.length + 1) by omega]
          · have hno1 : ¬ (bitPos ≤ q ∧ q < bitPos + 10) := by omega
            have hno2 : ¬ (bitPos + 10 ≤ q ∧ q < bitPos + 10 + 10 * rest.length) := by omega
            simp [hno1, hno2]
            intro _ h2
            exact absurd h2 (by omega)
      · have hno1 : ¬ (bitPos ≤ q ∧ q < bitPos + 10) := by omega
        have hno2 : ¬ (bitPos + 10 ≤ q ∧ q < bitPos + 10 + 10 * rest.length) := by omega
        simp [hno1, hno2]
        intro h1
        exact absurd h1 hq0

/-! ## Whole-decoder characterizations on structurally valid unit streams -/

theorem from_nan_valid (us : List Nat) (hval : ∀ u ∈ us, u &&& 0x7E00 = 0x7E00) :
    ∃ B, from_nan (pack16les us) = unframe B ∧
      B.length = (9 * us.length + 7) / 8 ∧
      (∀ b ∈ B, b < 256) ∧
      ∀ q, getBit B q =
        (decide (q < 9 * us.length) &&
          ((us.getD (q / 9) 0) &&& PAYLOAD_MASK).testBit (q % 9)) := by
  have hlen : (pack16les us).length = 2 * us.length := pack16les_length us
  have hR : ((pack16les us).length / 2 * 9 + 7) / 8 = (9 * us.length + 7) / 8 := by
    rw [hlen]; omega
  obtain ⟨res, heq, hreslen, hbnd, hbits⟩ :=
    from_nanLoop_spec ((pack16les us).length / 2 * 9) us
      (List.replicate (((pack16les us).length / 2 * 9 + 7) / 8) 0) 0
      hval (by rw [hlen]; omega) (by simp [List.length_replicate]; omega)
  refine ⟨res, ?_, ?_, ?_, ?_⟩
  · rw [from_nan, if_neg (by rw [hlen]; omega), unpack16le_pack16les, heq]
  · rw [hreslen, List.length_replicate, hR]
  · exact hbnd (by intro b hb; rw [List.eq_of_mem_replicate hb]; norm_num)
  · intro q
    rw [hbits q, getBit_replicate_zero]
    have h2 : (pack16les us).length / 2 * 9 = 9 * us.length := by rw [hlen]; omega
    simp [Nat.sub_zero, h2]

theorem from_sub_valid (us : List Nat)
    (hval : ∀ u ∈ us, u &&& EXPONENT_MASK = 0 ∧ u &&& SIGN_BIT = 0) :
    ∃ B, from_subnormal (pack16les us) = unframe B ∧
      B.length = (10 * us.length + 7) / 8 ∧
      (∀ b ∈ B, b < 256) ∧
      ∀ q, getBit B q =
        (decide (q < 10 * us.length) &&
          ((us.getD (q / 10) 0) &&& MANTISSA_MASK).testBit (q % 10)) := by
  have hlen : (pack16les us).length = 2 * us.length := pack16les_length us
  obtain ⟨res, heq, hreslen, hbnd, hbits⟩ :=
    from_subLoop_spec us
      (List.replicate (((pack16les us).length / 2 * 10 + 7) / 8) 0) 0
      hval (by simp [List.length_replicate]; rw [hlen]; omega)
  refine ⟨res, ?_, ?_, ?_, ?_⟩
  · rw [from_subnormal, if_neg (by rw [hlen]; omega), unpack16le_pack16les, heq]
  · rw [hreslen, List.length_replicate, hlen]; omega
  · exact hbnd (by intro b hb; rw [List.eq_of_mem_replicate hb]; norm_num)
  · intro q
    rw [hbits q, getBit_replicate_zero]
    simp [Nat.sub_zero]

/-! ## Byte-level reconstruction lemmas -/

theorem byte_eq_of_testBit (a b : Nat) (ha : a < 256) (hb : b < 256)
    (h : ∀ j, j < 8 → a.testBit j = b.testBit j) : a = b := by
  apply Nat.eq_of_testBit_eq
  intro i
  by_cases hi : i < 8
  · exact h i hi
  · rw [Nat.testBit_lt_two_pow, Nat.testBit_lt_two_pow]
    · calc b < 256 := hb
        _ = 2 ^ 8 := by norm_num
        _ ≤ 2 ^ i := Nat.pow_le_pow_right (by norm_num) (by omega)
    · calc a < 256 := ha
        _ = 2 ^ 8 := by norm_num
        _ ≤ 2 ^ i := Nat.pow_le_pow_right (by norm_num) (by omega)

theorem getBit_getElem (src : List Nat) (i j : Nat) (hi : i < src.length) (hj : j < 8) :
    getBit src (8 * i + j) = (src[i]).testBit j := by
  unfold getBit
  have hd : (8 * i + j) / 8 = i := by omega
  have hm : (8 * i + j) % 8 = j := by omega
  rw [hd, hm, List.getD_eq_getElem?_getD, List.getElem?_eq_getElem hi]
  rfl

theorem take_eq_of_bits (B src : List Nat) (hle : src.length ≤ B.length)
    (hB : ∀ b ∈ B, b < 256) (hsrc : ∀ b ∈ src, b < 256)
    (hbits : ∀ q, q < 8 * src.length → getBit B q = getBit src q) :
    B.take src.length = src := by
  apply List.ext_getElem
  · rw [List.length_take]; omega
  · intro i h1 h2
    rw [List.getElem_take]
    apply byte_eq_of_testBit
    · exact hB _ (List.getElem_mem _)
    · exact hsrc _ (List.getElem_mem _)
    · intro j hj
      have hq : 8 * i + j < 8 * src.length := by omega
      have := hbits (8 * i + j) hq
      rw [getBit_getElem B i j (by omega) hj, getBit_getElem src i j h2 hj] at this
      exact this

theorem le32_length (n : Nat) : (le32 n).length = 4 := by
  simp [le32]

theorem le32_bytes_lt (n : Nat) : ∀ b ∈ le32 n, b < 256 := by
  intro b hb
  simp [le32] at hb
  rcases hb with h | h | h | h <;> omega

theorem le32dec_le32 (n : Nat) (rest : List Nat) (h : n < 4294967296) :
    le32dec ((le32 n ++ rest).take 4) = n := by
  rw [List.take_append_of_le_length (by rw [le32_length])]
  simp [le32, le32dec, List.take, List.getD]
  omega

theorem unframe_framed (n : Nat) (data rest : List Nat)
    (hn : n = data.length) (h32 : n < 4294967296) :
    unframe (le32 n ++ data ++ rest) = .ok data := by
  have hlen : (le32 n ++ data ++ rest).length = 4 + data.length + rest.length := by
    simp [le32_length]; omega
  rw [unframe, if_pos (by omega)]
  rw [List.append_assoc, le32dec_le32 n (data ++ rest) h32]
  by_cases h0 : n = 0
  · rw [if_pos h0]
    have : data = [] := by
      cases data with
      | nil => rfl
      | cons a l => simp at hn; omega
    rw [this]
  · rw [if_neg h0, if_pos (by simp [le32_length]; omega)]
    have hdrop : List.drop 4 (le32 n ++ (data ++ rest)) = data ++ rest := by
      rw [show (4 : Nat) = (le32 n).length from (le32_length n).symm, List.drop_left]
    rw [hdrop, hn, List.take_left]

/-! ## Encoder-side unit lemmas -/

set_option maxRecDepth 100000 in
theorem nan_unit_and_quiet : ∀ p < 512, (0x7E00 ||| p) &&& 0x7E00 = 0x7E00 := by decide

set_option maxRecDepth 100000 in
theorem nan_unit_and_payload : ∀ p < 512, (0x7E00 ||| p) &&& 0x1FF = p := by decide

set_option maxRecDepth 100000 in
theorem sub_unit_masks : ∀ m < 1024,
    m &&& 0x7C00 = 0 ∧ m &&& 0x8000 = 0 ∧ m &&& 0x3FF = m := by decide

theorem to_nanUnits_length (dwl : List Nat) :
    (to_nanUnits dwl).length = (8 * dwl.length + 8) / 9 := by
  simp [to_nanUnits]

theorem to_nanUnits_getD (dwl : List Nat) (k : Nat)
    (hk : k < (8 * dwl.length + 8) / 9) :
    (to_nanUnits dwl).getD k 0 = NAN_QUIET ||| readBits dwl (9 * k) 9 := by
  rw [to_nanUnits, List.getD_eq_getElem?_getD,
      List.getElem?_eq_getElem (by simpa using hk)]
  simp

theorem to_nanUnits_valid (dwl : List Nat) :
    ∀ u ∈ to_nanUnits dwl, u &&& 0x7E00 = 0x7E00 := by
  intro u hu
  rw [to_nanUnits] at hu
  obtain ⟨k, _, hk⟩ := List.mem_map.mp hu
  rw [← hk]
  have := readBits_lt dwl (9 * k) 9
  exact nan_unit_and_quiet _ (by norm_num at this ⊢; exact this)

theorem to_nanUnits_streamBit (dwl : List Nat) (q : Nat)
    (hq : q < 9 * (to_nanUnits dwl).length) :
    ((to_nanUnits dwl).getD (q / 9) 0 &&& PAYLOAD_MASK).testBit (q % 9) =
      getBit dwl q := by
  rw [to_nanUnits_length] at hq
  rw [to_nanUnits_getD dwl (q / 9) (by omega)]
  have hlt := readBits_lt dwl (9 * (q / 9)) 9
  have hp : (NAN_QUIET ||| readBits dwl (9 * (q / 9)) 9) &&& PAYLOAD_MASK
      = readBits dwl (9 * (q / 9)) 9 := by
    have := nan_unit_and_payload (readBits dwl (9 * (q / 9)) 9) (by norm_num at hlt ⊢; exact hlt)
    simpa [NAN_QUIET, PAYLOAD_MASK] using this
  rw [hp, readBits_testBit]
  have : 9 * (q / 9) + q % 9 = q := by omega
  simp [this, show q % 9 < 9 by omega]

theorem to_subUnits_length (dwl : List Nat) :
    (to_subUnits dwl).length = (8 * dwl.length + 9) / 10 := by
  simp [to_subUnits]

theorem to_subUnits_getD (dwl : List Nat) (k : Nat)
    (hk : k < (8 * dwl.length + 9) / 10) :
    (to_subUnits dwl).getD k 0 = readBits dwl (10 * k) 10 := by
  rw [to_subUnits, List.getD_eq_getElem?_getD,
      List.getElem?_eq_getElem (by simpa using hk)]
  simp

theorem to_subUnits_valid (dwl : List Nat) :
    ∀ u ∈ to_subUnits dwl, u &&& EXPONENT_MASK = 0 ∧ u &&& SIGN_BIT = 0 := by
  intro u hu
  rw [to_subUnits] at hu
  obtain ⟨k, _, hk⟩ := List.mem_map.mp hu
  rw [← hk]
  have hlt := readBits_lt dwl (10 * k) 10
  have := sub_unit_masks (readBits dwl (10 * k) 10) (by norm_num at hlt ⊢; exact hlt)
  exact ⟨by simpa [EXPONENT_MASK] using this.1, by simpa [SIGN_BIT] using this.2.1⟩

theorem to_subUnits_streamBit (dwl : List Nat) (q : Nat)
    (hq : q < 10 * (to_subUnits dwl).length) :
    ((to_subUnits dwl).getD (q / 10) 0 &&& MANTISSA_MASK).testBit (q % 10) =
      getBit dwl q := by
  rw [to_subUnits_length] at hq
  rw [to_subUnits_getD dwl (q / 10) (by omega)]
  have hlt := readBits_lt dwl (10 * (q / 10)) 10
  have hp : readBits dwl (10 * (q / 10)) 10 &&& MANTISSA_MASK
      = readBits dwl (10 * (q / 10)) 10 := by
    have := sub_unit_masks (readBits dwl (10 * (q / 10)) 10) (by norm_num at hlt ⊢; exact hlt)
    simpa [MANTISSA_MASK] using this.2.2
  rw [hp, readBits_testBit]
  have : 10 * (q / 10) + q % 10 = q := by omega
  simp [this, show q % 10 < 10 by omega]

/-! ## Framed decode lemmas -/

theorem nan_decode_ok (W : List Nat) (n : Nat) (data : List Nat)
    (hval : ∀ u ∈ W, u &&& 0x7E00 = 0x7E00)
    (hn : n = data.length) (h32 : n < 4294967296)
    (hdata : ∀ b ∈ data, b < 256)
    (hfit : 8 * (n + 4) ≤ 9 * W.length)
    (hbits : ∀ q, q < 8 * (n + 4) →
      ((W.getD (q / 9) 0) &&& PAYLOAD_MASK).testBit (q % 9) = getBit (le32 n ++ data) q) :
    from_nan (pack16les W) = .ok data := by
  obtain ⟨B, hB, hBlen, hBbytes, hBbits⟩ := from_nan_valid W hval
  have hdwl_len : (le32 n ++ data).length = n + 4 := by
    simp [le32_length]; omega
  have hLle : (le32 n ++ data).length ≤ B.length := by
    rw [hBlen, hdwl_len]; omega
  have htake : B.take (le32 n ++ data).length = le32 n ++ data := by
    apply take_eq_of_bits _ _ hLle hBbytes
    · intro b hb
      rcases List.mem_append.mp hb with h | h
      · exact le32_bytes_lt n b h
      · exact hdata b h
    · intro q hq
      rw [hdwl_len] at hq
      rw [hBbits q, hbits q (by omega)]
      simp [show q < 9 * W.length by omega]
  have hsplit : B = (le32 n ++ data) ++ B.drop (le32 n ++ data).length := by
    conv_lhs => rw [← List.take_append_drop (le32 n ++ data).length B]
    rw [htake]
  rw [hB, hsplit, List.append_assoc]
  exact unframe_framed n data _ hn h32

theorem sub_decode_ok (W : List Nat) (n : Nat) (data : List Nat)
    (hval : ∀ u ∈ W, u &&& EXPONENT_MASK = 0 ∧ u &&& SIGN_BIT = 0)
    (hn : n = data.length) (h32 : n < 4294967296)
    (hdata : ∀ b ∈ data, b < 256)
    (hfit : 8 * (n + 4) ≤ 10 * W.length)
    (hbits : ∀ q, q < 8 * (n + 4) →
      ((W.getD (q / 10) 0) &&& MANTISSA_MASK).testBit (q % 10) = getBit (le32 n ++ data) q) :
    from_subnormal (pack16les W) = .ok data := by
  obtain ⟨B, hB, hBlen, hBbytes, hBbits⟩ := from_sub_valid W hval
  have hdwl_len : (le32 n ++ data).length = n + 4 := by
    simp [le32_length]; omega
  have hLle : (le32 n ++ data).length ≤ B.length := by
    rw [hBlen, hdwl_len]; omega
  have htake : B.take (le32 n ++ data).length = le32 n ++ data := by
    apply take_eq_of_bits _ _ hLle hBbytes
    · intro b hb
      rcases List.mem_append.mp hb with h | h
      · exact le32_bytes_lt n b h
      · exact hdata b h
    · intro q hq
      rw [hdwl_len] at hq
      rw [hBbits q, hbits q (by omega)]
      simp [show q < 10 * W.length by omega]
  have hsplit : B = (le32 n ++ data) ++ B.drop (le32 n ++ data).length := by
    conv_lhs => rw [← List.take_append_drop (le32 n ++ data).length B]
    rw [htake]
  rw [hB, hsplit, List.append_assoc]
  exact unframe_framed n data _ hn h32

/-! ## Nan and Subnormal round trips -/

theorem from_nan_to_nan (data : List Nat) (hbytes : ∀ b ∈ data, b < 256)
    (hsize : data.length ≤ MAX_INPUT_SIZE) :
    to_nan data = .ok (pack16les (to_nanUnits (le32 data.length ++ data))) ∧
    from_nan (pack16les (to_nanUnits (le32 data.length ++ data))) = .ok data := by
  constructor
  · rw [to_nan, if_neg (by omega)]
  · have hWlen := to_nanUnits_length (le32 data.length ++ data)
    have hdwl_len : (le32 data.length ++ data).length = data.length + 4 := by
      simp [le32_length]; omega
    apply nan_decode_ok _ data.length data (to_nanUnits_valid _) rfl
      (by have := hsize; rw [MAX_INPUT_SIZE] at this; omega) hbytes
    · rw [hWlen, hdwl_len]; omega
    · intro q hq
      apply to_nanUnits_streamBit
      rw [hWlen, hdwl_len]
      omega

theorem from_sub_to_sub (data : List Nat) (hbytes : ∀ b ∈ data, b < 256)
    (hsize : data.length ≤ MAX_INPUT_SIZE) :
    to_subnormal data = .ok (pack16les (to_subUnits (le32 data.length ++ data))) ∧
    from_subnormal (pack16les (to_subUnits (le32 data.length ++ data))) = .ok data := by
  constructor
  · rw [to_subnormal, if_neg (by omega)]
  · have hWlen := to_subUnits_length (le32 data.length ++ data)
    have hdwl_len : (le32 data.length ++ data).length = data.length + 4 := by
      simp [le32_length]; omega
    apply sub_decode_ok _ data.length data (to_subUnits_valid _) rfl
      (by have := hsize; rw [MAX_INPUT_SIZE] at this; omega) hbytes
    · rw [hWlen, hdwl_len]; omega
    · intro q hq
      apply to_subUnits_streamBit
      rw [hWlen, hdwl_len]
      omega

/-! ## Zero and Inf round trips -/

deriving instance DecidableEq for Except

set_option maxRecDepth 100000 in
theorem zeroBits_byte : ∀ b < 256, zeroBits (zeroUnitsOfByte b) 0 0 = .ok b := by decide

set_option maxRecDepth 100000 in
theorem infBits_byte : ∀ b < 256, infBits (infUnitsOfByte b) 0 0 = .ok b := by decide

theorem zeroUnitsOfByte_length (b : Nat) : (zeroUnitsOfByte b).length = 8 := by
  simp [zeroUnitsOfByte]

theorem infUnitsOfByte_length (b : Nat) : (infUnitsOfByte b).length = 8 := by
  simp [infUnitsOfByte]

theorem to_zeroUnits_length (data : List Nat) :
    (to_zeroUnits data).length = 8 * data.length := by
  induction data with
  | nil => rfl
  | cons b rest ih => simp [to_zeroUnits, zeroUnitsOfByte_length, ih]; omega

theorem to_infUnits_length (data : List Nat) :
    (to_infUnits data).length = 8 * data.length := by
  induction data with
  | nil => rfl
  | cons b rest ih => simp [to_infUnits, infUnitsOfByte_length, ih]; omega

theorem from_zeroGroups_to_zeroUnits (data : List Nat) (hbytes : ∀ b ∈ data, b < 256) :
    from_zeroGroups data.length (to_zeroUnits data) = .ok data := by
  induction data with
  | nil => rfl
  | cons b rest ih =>
    show from_zeroGroups (rest.length + 1) (zeroUnitsOfByte b ++ to_zeroUnits rest) = _
    rw [from_zeroGroups]
    rw [List.take_append_of_le_length (by rw [zeroUnitsOfByte_length]),
        List.drop_append_of_le_length (by rw [zeroUnitsOfByte_length])]
    have ht : (zeroUnitsOfByte b).take 8 = zeroUnitsOfByte b := by
      apply List.take_of_length_le
      rw [zeroUnitsOfByte_length]
    have hd : (zeroUnitsOfByte b).drop 8 = [] := by
      apply List.drop_eq_nil_of_le
      rw [zeroUnitsOfByte_length]
    rw [ht, hd, List.nil_append, zeroBits_byte b (hbytes b (by simp)),
        ih (fun x hx => hbytes x (by simp [hx]))]

theorem from_infGroups_to_infUnits (data : List Nat) (hbytes : ∀ b ∈ data, b < 256) :
    from_infGroups data.length (to_infUnits data) = .ok data := by
  induction data with
  | nil => rfl
  | cons b rest ih =>
    show from_infGroups (rest.length + 1) (infUnitsOfByte b ++ to_infUnits rest) = _
    rw [from_infGroups]
    rw [List.take_append_of_le_length (by rw [infUnitsOfByte_length]),
        List.drop_append_of_le_length (by rw [infUnitsOfByte_length])]
    have ht : (infUnitsOfByte b).take 8 = infUnitsOfByte b := by
      apply List.take_of_length_le
      rw [infUnitsOfByte_length]
    have hd : (infUnitsOfByte b).drop 8 = [] := by
      apply List.drop_eq_nil_of_le
      rw [infUnitsOfByte_length]
    rw [ht, hd, List.nil_append, infBits_byte b (hbytes b (by simp)),
        ih (fun x hx => hbytes x (by simp [hx]))]

theorem from_zero_to_zero (data : List Nat) (hbytes : ∀ b ∈ data, b < 256)
    (hsize : data.length ≤ MAX_INPUT_SIZE) :
    to_zero data = .ok (pack16les (to_zeroUnits data)) ∧
    from_zero (pack16les (to_zeroUnits data)) = .ok data := by
  have hlen : (pack16les (to_zeroUnits data)).length = 16 * data.length := by
    rw [pack16les_length, to_zeroUnits_length]; omega
  refine ⟨by rw [to_zero, if_neg (by omega)], ?_⟩
  rw [from_zero, if_neg (by omega), if_neg (by rw [hlen]; omega),
      unpack16le_pack16les]
  have hg : (pack16les (to_zeroUnits data)).length / 2 / 8 = data.length := by
    rw [hlen]; omega
  rw [hg]
  exact from_zeroGroups_to_zeroUnits data hbytes

theorem from_inf_to_inf (data : List Nat) (hbytes : ∀ b ∈ data, b < 256)
    (hsize : data.length ≤ MAX_INPUT_SIZE) :
    to_inf data = .ok (pack16les (to_infUnits data)) ∧
    from_inf (pack16les (to_infUnits data)) = .ok data := by
  have hlen : (pack16les (to_infUnits data)).length = 16 * data.length := by
    rw [pack16les_length, to_infUnits_length]; omega
  refine ⟨by rw [to_inf, if_neg (by omega)], ?_⟩
  rw [from_inf, if_neg (by omega), if_neg (by rw [hlen]; omega),
      unpack16le_pack16les]
  have hg : (pack16les (to_infUnits data)).length / 2 / 8 = data.length := by
    rw [hlen]; omega
  rw [hg]
  exact from_infGroups_to_infUnits data hbytes

/-! ## Facade dispatch lemmas -/

theorem encode_zero (data : List Nat) : encode data "zero" = to_zero data := by
  simp [encode]

theorem encode_inf (data : List Nat) : encode data "inf" = to_inf data := by
  simp [encode]

theorem encode_nan (data : List Nat) : encode data "nan" = to_nan data := by
  simp [encode]

theorem encode_sub (data : List Nat) : encode data "subnormal" = to_subnormal data := by
  simp [encode]

theorem decode_zero (data : List Nat) : decode data "zero" = from_zero data := by
  simp [decode, decodeDispatch]

theorem decode_inf (data : List Nat) : decode data "inf" = from_inf data := by
  simp [decode, decodeDispatch]

theorem decode_nan (data : List Nat) : decode data "nan" = from_nan data := by
  simp [decode, decodeDispatch]

theorem decode_sub (data : List Nat) : decode data "subnormal" = from_subnormal data := by
  simp [decode, decodeDispatch]

/-- Claim C1: for every scheme in zero, inf, nan, subnormal and every
plaintext (byte list, length at most `MAX_INPUT_SIZE` = 100 MiB),
`decode (encode p s) s = p`, and the per-scheme pairs `from_X (to_X p) = p`
likewise round-trip. -/
theorem claim_C1 (p : List Nat) (hbytes : ∀ b ∈ p, b < 256)
    (hsize : p.length ≤ MAX_INPUT_SIZE) :
    (∃ c, encode p "zero" = .ok c ∧ decode c "zero" = .ok p ∧
      to_zero p = .ok c ∧ from_zero c = .ok p) ∧
    (∃ c, encode p "inf" = .ok c ∧ decode c "inf" = .ok p ∧
      to_inf p = .ok c ∧ from_inf c = .ok p) ∧
    (∃ c, encode p "nan" = .ok c ∧ decode c "nan" = .ok p ∧
      to_nan p = .ok c ∧ from_nan c = .ok p) ∧
    (∃ c, encode p "subnormal" = .ok c ∧ decode c "subnormal" = .ok p ∧
      to_subnormal p = .ok c ∧ from_subnormal c = .ok p) := by
  obtain ⟨hz1, hz2⟩ := from_zero_to_zero p hbytes hsize
  obtain ⟨hi1, hi2⟩ := from_inf_to_inf p hbytes hsize
  obtain ⟨hn1, hn2⟩ := from_nan_to_nan p hbytes hsize
  obtain ⟨hs1, hs2⟩ := from_sub_to_sub p hbytes hsize
  exact ⟨⟨_, by rw [encode_zero, hz1], by rw [decode_zero, hz2], hz1, hz2⟩,
         ⟨_, by rw [encode_inf, hi1], by rw [decode_inf, hi2], hi1, hi2⟩,
         ⟨_, by rw [encode_nan, hn1], by rw [decode_nan, hn2], hn1, hn2⟩,
         ⟨_, by rw [encode_sub, hs1], by rw [decode_sub, hs2], hs1, hs2⟩⟩

theorem claim_C1_witness :
    (∀ b ∈ [0, 171, 255], b < 256) ∧ ([0, 171, 255] : List Nat).length ≤ MAX_INPUT_SIZE ∧
    ((∃ c, encode [0, 171, 255] "zero" = .ok c ∧ decode c "zero" = .ok [0, 171, 255] ∧
      to_zero [0, 171, 255] = .ok c ∧ from_zero c = .ok [0, 171, 255]) ∧
    (∃ c, encode [0, 171, 255] "inf" = .ok c ∧ decode c "inf" = .ok [0, 171, 255] ∧
      to_inf [0, 171, 255] = .ok c ∧ from_inf c = .ok [0, 171, 255]) ∧
    (∃ c, encode [0, 171, 255] "nan" = .ok c ∧ decode c "nan" = .ok [0, 171, 255] ∧
      to_nan [0, 171, 255] = .ok c ∧ from_nan c = .ok [0, 171, 255]) ∧
    (∃ c, encode [0, 171, 255] "subnormal" = .ok c ∧ decode c "subnormal" = .ok [0, 171, 255] ∧
      to_subnormal [0, 171, 255] = .ok c ∧ from_subnormal c = .ok [0, 171, 255])) :=
  ⟨by decide, by decide, claim_C1 [0, 171, 255] (by decide) (by decide)⟩

/-- Claim C3: expansion ratios.  `encode p "zero"` and `encode p "inf"` are
`16 * len p` bytes; `encode p "nan"` is `2 * ceil(8*(len p + 4) / 9)` bytes
and `encode p "subnormal"` is `2 * ceil(8*(len p + 4) / 10)` bytes (the
ceilings written with Nat division). -/
theorem claim_C3 (p : List Nat) (hsize : p.length ≤ MAX_INPUT_SIZE) :
    (∃ c, encode p "zero" = .ok c ∧ c.length = 16 * p.length) ∧
    (∃ c, encode p "inf" = .ok c ∧ c.length = 16 * p.length) ∧
    (∃ c, encode p "nan" = .ok c ∧ c.length = 2 * ((8 * (p.length + 4) + 8) / 9)) ∧
    (∃ c, encode p "subnormal" = .ok c ∧ c.length = 2 * ((8 * (p.length + 4) + 9) / 10)) := by
  have hdwl : (le32 p.length ++ p).length = p.length + 4 := by
    simp [le32_length]; omega
  refine ⟨⟨pack16les (to_zeroUnits p), ?_, ?_⟩,
          ⟨pack16les (to_infUnits p), ?_, ?_⟩,
          ⟨pack16les (to_nanUnits (le32 p.length ++ p)), ?_, ?_⟩,
          ⟨pack16les (to_subUnits (le32 p.length ++ p)), ?_, ?_⟩⟩
  · rw [encode_zero, to_zero, if_neg (by omega)]
  · rw [pack16les_length, to_zeroUnits_length]; omega
  · rw [encode_inf, to_inf, if_neg (by omega)]
  · rw [pack16les_length, to_infUnits_length]; omega
  · rw [encode_nan, to_nan, if_neg (by omega)]
  · rw [pack16les_length, to_nanUnits_length, hdwl]
  · rw [encode_sub, to_subnormal, if_neg (by omega)]
  · rw [pack16les_length, to_subUnits_length, hdwl]

theorem claim_C3_witness :
    ([5, 6] : List Nat).length ≤ MAX_INPUT_SIZE ∧
    ((∃ c, encode [5, 6] "zero" = .ok c ∧ c.length = 16 * ([5, 6] : List Nat).length) ∧
    (∃ c, encode [5, 6] "inf" = .ok c ∧ c.length = 16 * ([5, 6] : List Nat).length) ∧
    (∃ c, encode [5, 6] "nan" = .ok c ∧
      c.length = 2 * ((8 * (([5, 6] : List Nat).length + 4) + 8) / 9)) ∧
    (∃ c, encode [5, 6] "subnormal" = .ok c ∧
      c.length = 2 * ((8 * (([5, 6] : List Nat).length + 4) + 9) / 10))) :=
  ⟨by decide, claim_C3 [5, 6] (by decide)⟩

/-- Claim C4: `from_zero` and `from_inf` fail with `MalformedLength` whenever
the byte count is odd or the unit count is not a multiple of 8, regardless of
the unit values (the check precedes any unit inspection); `from_nan` and
`from_subnormal` likewise fail on an odd byte count. -/
theorem claim_C4 (data : List Nat) :
    (data.length % 2 = 1 →
      from_zero data = .error .malformedLength ∧
      from_inf data = .error .malformedLength ∧
      from_nan data = .error .malformedLength ∧
      from_subnormal data = .error .malformedLength) ∧
    (data.length % 2 = 0 → (data.length / 2) % 8 ≠ 0 →
      from_zero data = .error .malformedLength ∧
      from_inf data = .error .malformedLength) := by
  constructor
  · intro hodd
    refine ⟨?_, ?_, ?_, ?_⟩
    · rw [from_zero, if_pos (by omega)]
    · rw [from_inf, if_pos (by omega)]
    · rw [from_nan, if_pos (by omega)]
    · rw [from_subnormal, if_pos (by omega)]
  · intro heven hbad
    constructor
    · rw [from_zero, if_neg (by omega), if_pos hbad]
    · rw [from_inf, if_neg (by omega), if_pos hbad]

theorem claim_C4_witness :
    (([1] : List Nat).length % 2 = 1 ∧
      (from_zero [1] = .error .malformedLength ∧
       from_inf [1] = .error .malformedLength ∧
       from_nan [1] = .error .malformedLength ∧
       from_subnormal [1] = .error .malformedLength)) ∧
    (([1, 2] : List Nat).length % 2 = 0 ∧ (([1, 2] : List Nat).length / 2) % 8 ≠ 0 ∧
      (from_zero [1, 2] = .error .malformedLength ∧
       from_inf [1, 2] = .error .malformedLength)) :=
  ⟨⟨by decide, (claim_C4 [1]).1 (by decide)⟩,
   ⟨by decide, by decide, (claim_C4 [1, 2]).2 (by decide) (by decide)⟩⟩

/-- Claim C7: encoding exactly `MAX_INPUT_SIZE` bytes succeeds for every
scheme; one byte more fails with `InputTooLarge` (before any unit is
produced); an unrecognized scheme name fails with `UnknownScheme` for every
input, regardless of its size. -/
theorem claim_C7 :
    (∀ p : List Nat, p.length = MAX_INPUT_SIZE →
      (∃ c, encode p "zero" = .ok c) ∧ (∃ c, encode p "inf" = .ok c) ∧
      (∃ c, encode p "nan" = .ok c) ∧ (∃ c, encode p "subnormal" = .ok c)) ∧
    (∀ p : List Nat, p.length = MAX_INPUT_SIZE + 1 →
      encode p "zero" = .error .inputTooLarge ∧
      encode p "inf" = .error .inputTooLarge ∧
      encode p "nan" = .error .inputTooLarge ∧
      encode p "subnormal" = .error .inputTooLarge) ∧
    (∀ (p : List Nat) (m : String),
      m ≠ "zero" → m ≠ "inf" → m ≠ "nan" → m ≠ "subnormal" →
      encode p m = .error .unknownScheme) := by
  refine ⟨?_, ?_, ?_⟩
  · intro p hp
    exact ⟨⟨_, by rw [encode_zero, to_zero, if_neg (by omega)]⟩,
           ⟨_, by rw [encode_inf, to_inf, if_neg (by omega)]⟩,
           ⟨_, by rw [encode_nan, to_nan, if_neg (by omega)]⟩,
           ⟨_, by rw [encode_sub, to_subnormal, if_neg (by omega)]⟩⟩
  · intro p hp
    exact ⟨by rw [encode_zero, to_zero, if_pos (by omega)],
           by rw [encode_inf, to_inf, if_pos (by omega)],
           by rw [encode_nan, to_nan, if_pos (by omega)],
           by rw [encode_sub, to_subnormal, if_pos (by omega)]⟩
  · intro p m h1 h2 h3 h4
    rw [encode, if_neg h1, if_neg h2, if_neg h3, if_neg h4]

theorem claim_C7_witness :
    ((List.replicate MAX_INPUT_SIZE 0).length = MAX_INPUT_SIZE ∧
      ((∃ c, encode (List.replicate MAX_INPUT_SIZE 0) "zero" = .ok c) ∧
       (∃ c, encode (List.replicate MAX_INPUT_SIZE 0) "inf" = .ok c) ∧
       (∃ c, encode (List.replicate MAX_INPUT_SIZE 0) "nan" = .ok c) ∧
       (∃ c, encode (List.replicate MAX_INPUT_SIZE 0) "subnormal" = .ok c))) ∧
    ((List.replicate (MAX_INPUT_SIZE + 1) 0).length = MAX_INPUT_SIZE + 1 ∧
      (encode (List.replicate (MAX_INPUT_SIZE + 1) 0) "zero" = .error .inputTooLarge ∧
       encode (List.replicate (MAX_INPUT_SIZE + 1) 0) "inf" = .error .inputTooLarge ∧
       encode (List.replicate (MAX_INPUT_SIZE + 1) 0) "nan" = .error .inputTooLarge ∧
       encode (List.replicate (MAX_INPUT_SIZE + 1) 0) "subnormal" = .error .inputTooLarge)) ∧
    (("gaussian" : String) ≠ "zero" ∧
      encode (List.replicate (MAX_INPUT_SIZE + 1) 0) "gaussian" = .error .unknownScheme) :=
  ⟨⟨by simp, (claim_C7.1 _ (by simp))⟩,
   ⟨by simp, (claim_C7.2.1 _ (by simp))⟩,
   ⟨by decide, claim_C7.2.2 _ "gaussian" (by decide) (by decide) (by decide) (by decide)⟩⟩

/-- Claim C8: decoding the empty byte string succeeds with the empty result
for `from_zero` and `from_inf` (the length checks pass vacuously), but fails
with `CorruptedHeader` for `from_nan` and `from_subnormal` (fewer than 4
recovered header bytes). -/
theorem claim_C8 :
    from_zero [] = .ok [] ∧ from_inf [] = .ok [] ∧
    from_nan [] = .error .corruptedHeader ∧
    from_subnormal [] = .error .corruptedHeader := by
  refine ⟨rfl, rfl, ?_, ?_⟩ <;> decide

/-- Claim C6: header extraction on nan/subnormal decode.  On the recovered
byte sequence: shorter than 4 bytes fails `CorruptedHeader`; a zero
little-endian length yields the empty plaintext; a nonzero length `L` with
`4 + L` within the sequence yields exactly the slice `[4, 4+L)`, and
otherwise `CorruptedHeader`.  Both `from_nan` and `from_subnormal` reduce to
this `unframe` step on their recovered byte buffers. -/
theorem claim_C6 :
    (∀ bs : List Nat, bs.length < 4 → unframe bs = .error .corruptedHeader) ∧
    (∀ bs : List Nat, 4 ≤ bs.length → le32dec (bs.take 4) = 0 → unframe bs = .ok []) ∧
    (∀ bs : List Nat, 4 ≤ bs.length → le32dec (bs.take 4) ≠ 0 →
      4 + le32dec (bs.take 4) ≤ bs.length →
      unframe bs = .ok ((bs.drop 4).take (le32dec (bs.take 4)))) ∧
    (∀ bs : List Nat, 4 ≤ bs.length → le32dec (bs.take 4) ≠ 0 →
      bs.length < 4 + le32dec (bs.take 4) →
      unframe bs = .error .corruptedHeader) ∧
    (∀ us : List Nat, (∀ u ∈ us, u &&& 0x7E00 = 0x7E00) →
      ∃ B, from_nan (pack16les us) = unframe B ∧
        B.length = (9 * us.length + 7) / 8) ∧
    (∀ us : List Nat, (∀ u ∈ us, u &&& EXPONENT_MASK = 0 ∧ u &&& SIGN_BIT = 0) →
      ∃ B, from_subnormal (pack16les us) = unframe B ∧
        B.length = (10 * us.length + 7) / 8) := by
  refine ⟨?_, ?_, ?_, ?_, ?_, ?_⟩
  · intro bs h
    rw [unframe, if_neg (by omega)]
  · intro bs h h0
    rw [unframe, if_pos h, if_pos h0]
  · intro bs h h0 hfit
    rw [unframe, if_pos h, if_neg h0, if_pos hfit]
  · intro bs h h0 hfit
    rw [unframe, if_pos h, if_neg h0, if_neg (by omega)]
  · intro us hval
    obtain ⟨B, h1, h2, _, _⟩ := from_nan_valid us hval
    exact ⟨B, h1, h2⟩
  · intro us hval
    obtain ⟨B, h1, h2, _, _⟩ := from_sub_valid us hval
    exact ⟨B, h1, h2⟩

theorem claim_C6_witness :
    (([1, 2, 3] : List Nat).length < 4 ∧
      unframe [1, 2, 3] = .error .corruptedHeader) ∧
    (4 ≤ ([0, 0, 0, 0, 9] : List Nat).length ∧
      le32dec (([0, 0, 0, 0, 9] : List Nat).take 4) = 0 ∧
      unframe [0, 0, 0, 0, 9] = .ok []) ∧
    (4 ≤ ([2, 0, 0, 0, 7, 8, 9] : List Nat).length ∧
      le32dec (([2, 0, 0, 0, 7, 8, 9] : List Nat).take 4) ≠ 0 ∧
      4 + le32dec (([2, 0, 0, 0, 7, 8, 9] : List Nat).take 4) ≤
        ([2, 0, 0, 0, 7, 8, 9] : List Nat).length ∧
      unframe [2, 0, 0, 0, 7, 8, 9] =
        .ok ((([2, 0, 0, 0, 7, 8, 9] : List Nat).drop 4).take
          (le32dec (([2, 0, 0, 0, 7, 8, 9] : List Nat).take 4)))) ∧
    (4 ≤ ([9, 0, 0, 0] : List Nat).length ∧
      le32dec (([9, 0, 0, 0] : List Nat).take 4) ≠ 0 ∧
      ([9, 0, 0, 0] : List Nat).length < 4 + le32dec (([9, 0, 0, 0] : List Nat).take 4) ∧
      unframe [9, 0, 0, 0] = .error .corruptedHeader) ∧
    ((∀ u ∈ ([0x7E01] : List Nat), u &&& 0x7E00 = 0x7E00) ∧
      ∃ B, from_nan (pack16les [0x7E01]) = unframe B ∧
        B.length = (9 * ([0x7E01] : List Nat).length + 7) / 8) ∧
    ((∀ u ∈ ([37] : List Nat), u &&& EXPONENT_MASK = 0 ∧ u &&& SIGN_BIT = 0) ∧
      ∃ B, from_subnormal (pack16les [37]) = unframe B ∧
        B.length = (10 * ([37] : List Nat).length + 7) / 8) :=
  ⟨⟨by decide, claim_C6.1 [1, 2, 3] (by decide)⟩,
   ⟨by decide, by decide, claim_C6.2.1 [0, 0, 0, 0, 9] (by decide) (by decide)⟩,
   ⟨by decide, by decide, by decide,
     claim_C6.2.2.1 [2, 0, 0, 0, 7, 8, 9] (by decide) (by decide) (by decide)⟩,
   ⟨by decide, by decide, by decide,
     claim_C6.2.2.2.1 [9, 0, 0, 0] (by decide) (by decide) (by decide)⟩,
   ⟨by decide, claim_C6.2.2.2.2.1 [0x7E01] (by decide)⟩,
   ⟨by decide, claim_C6.2.2.2.2.2 [37] (by decide)⟩⟩

/-- Claim C10: for the nan and subnormal schemes, appending any number of
additional structurally valid units (quiet-NaN-topped units for nan; zero
sign and exponent fields for subnormal) to an encoded stream still decodes to
exactly the original plaintext: payload bits beyond the `4 + L` framed bytes
are ignored. -/
theorem claim_C10 (p V : List Nat) (hbytes : ∀ b ∈ p, b < 256)
    (hsize : p.length ≤ MAX_INPUT_SIZE) :
    ((∀ v ∈ V, v &&& 0x7E00 = 0x7E00) →
      ∃ c, encode p "nan" = .ok c ∧ decode (c ++ pack16les V) "nan" = .ok p) ∧
    ((∀ v ∈ V, v &&& EXPONENT_MASK = 0 ∧ v &&& SIGN_BIT = 0) →
      ∃ c, encode p "subnormal" = .ok c ∧
        decode (c ++ pack16les V) "subnormal" = .ok p) := by
  have hdwl : (le32 p.length ++ p).length = p.length + 4 := by
    simp [le32_length]; omega
  have h32 : p.length < 4294967296 := by
    have := hsize; rw [MAX_INPUT_SIZE] at this; omega
  constructor
  · intro hV
    refine ⟨pack16les (to_nanUnits (le32 p.length ++ p)), ?_, ?_⟩
    · rw [encode_nan, to_nan, if_neg (by omega)]
    · rw [decode_nan, ← pack16les_append]
      have hWlen := to_nanUnits_length (le32 p.length ++ p)
      apply nan_decode_ok _ p.length p ?_ rfl h32 hbytes
      · rw [List.length_append, hWlen, hdwl]
        omega
      · intro q hq
        have hqW : q < 9 * (to_nanUnits (le32 p.length ++ p)).length := by
          rw [hWlen, hdwl]; omega
        rw [List.getD_append _ _ _ _ (by rw [hWlen, hdwl]; omega)]
        exact to_nanUnits_streamBit _ q hqW
      · intro u hu
        rcases List.mem_append.mp hu with h | h
        · exact to_nanUnits_valid _ u h
        · exact hV u h
  · intro hV
    refine ⟨pack16les (to_subUnits (le32 p.length ++ p)), ?_, ?_⟩
    · rw [encode_sub, to_subnormal, if_neg (by omega)]
    · rw [decode_sub, ← pack16les_append]
      have hWlen := to_subUnits_length (le32 p.length ++ p)
      apply sub_decode_ok _ p.length p ?_ rfl h32 hbytes
      · rw [List.length_append, hWlen, hdwl]
        omega
      · intro q hq
        have hqW : q < 10 * (to_subUnits (le32 p.length ++ p)).length := by
          rw [hWlen, hdwl]; omega
        rw [List.getD_append _ _ _ _ (by rw [hWlen, hdwl]; omega)]
        exact to_subUnits_streamBit _ q hqW
      · intro u hu
        rcases List.mem_append.mp hu with h | h
        · exact to_subUnits_valid _ u h
        · exact hV u h

theorem claim_C10_witness :
    (∀ b ∈ ([202] : List Nat), b < 256) ∧
    ([202] : List Nat).length ≤ MAX_INPUT_SIZE ∧
    (((∀ v ∈ ([0x7FFF, 0x7E00] : List Nat), v &&& 0x7E00 = 0x7E00) →
      ∃ c, encode [202] "nan" = .ok c ∧
        decode (c ++ pack16les [0x7FFF, 0x7E00]) "nan" = .ok [202]) ∧
    ((∀ v ∈ ([0x7FFF, 0x7E00] : List Nat),
        v &&& EXPONENT_MASK = 0 ∧ v &&& SIGN_BIT = 0) →
      ∃ c, encode [202] "subnormal" = .ok c ∧
        decode (c ++ pack16les [0x7FFF, 0x7E00]) "subnormal" = .ok [202])) :=
  ⟨by decide, by decide, claim_C10 [202] [0x7FFF, 0x7E00] (by decide) (by decide)⟩

/-! ## Structural error lemmas for the decoders -/

theorem zeroBits_error_kind :
    ∀ (l : List Nat) (j acc : Nat) (e : Err),
      zeroBits l j acc = .error e → e = .impureZero := by
  intro l
  induction l with
  | nil => intro j acc e h; exact absurd h (by simp [zeroBits])
  | cons u rest ih =>
    intro j acc e h
    rw [zeroBits] at h
    by_cases h1 : u = SIGN_BIT
    · rw [if_pos h1] at h
      exact ih _ _ _ h
    · rw [if_neg h1] at h
      by_cases h2 : u ≠ 0
      · rw [if_pos h2] at h
        cases h
        rfl
      · rw [if_neg h2] at h
        exact ih _ _ _ h

theorem zeroBits_err_of_bad :
    ∀ (l : List Nat) (j acc : Nat), (∃ u ∈ l, u ≠ 0 ∧ u ≠ SIGN_BIT) →
      zeroBits l j acc = .error .impureZero := by
  intro l
  induction l with
  | nil => intro j acc h; simp at h
  | cons u rest ih =>
    intro j acc h
    rw [zeroBits]
    by_cases h1 : u = SIGN_BIT
    · rw [if_pos h1]
      apply ih
      obtain ⟨w, hw, hbad⟩ := h
      rcases List.mem_cons.mp hw with he | hm
      · exact absurd (he ▸ h1) hbad.2
      · exact ⟨w, hm, hbad⟩
    · rw [if_neg h1]
      by_cases h2 : u = 0
      · rw [if_neg (by simp [h2])]
        apply ih
        obtain ⟨w, hw, hbad⟩ := h
        rcases List.mem_cons.mp hw with he | hm
        · exact absurd (he ▸ h2) hbad.1
        · exact ⟨w, hm, hbad⟩
      · rw [if_pos h2]

theorem from_zeroGroups_err :
    ∀ (g : Nat) (units : List Nat), units.length = 8 * g →
      (∃ u ∈ units, u ≠ 0 ∧ u ≠ SIGN_BIT) →
      from_zeroGroups g units = .error .impureZero := by
  intro g
  induction g with
  | zero =>
    intro units hlen h
    rw [List.eq_nil_of_length_eq_zero (show units.length = 0 by omega)] at h
    simp at h
  | succ g ih =>
    intro units hlen h
    rw [from_zeroGroups]
    cases hz : zeroBits (units.take 8) 0 0 with
    | error e =>
      have he := zeroBits_error_kind _ _ _ _ hz
      subst he
      rfl
    | ok b =>
      have hnotake : ¬ ∃ u ∈ units.take 8, u ≠ 0 ∧ u ≠ SIGN_BIT := by
        intro hbad
        rw [zeroBits_err_of_bad _ 0 0 hbad] at hz
        cases hz
      have hdrop : ∃ u ∈ units.drop 8, u ≠ 0 ∧ u ≠ SIGN_BIT := by
        obtain ⟨w, hw, hbad⟩ := h
        rw [← List.take_append_drop 8 units] at hw
        rcases List.mem_append.mp hw with hm | hm
        · exact absurd ⟨w, hm, hbad⟩ hnotake
        · exact ⟨w, hm, hbad⟩
      have hd := ih (units.drop 8) (by rw [List.length_drop]; omega) hdrop
      simp [hd]

theorem from_nanLoop_err (totalBits : Nat) :
    ∀ (units result : List Nat) (bitPos : Nat),
      (∃ u ∈ units, u &&& 0x7E00 ≠ 0x7E00) →
      from_nanLoop totalBits units result bitPos = .error .notQuietNan := by
  intro units
  induction units with
  | nil => intro result bitPos h; simp at h
  | cons u rest ih =>
    intro result bitPos h
    rw [from_nanLoop]
    by_cases h1 : u &&& 0x7E00 ≠ 0x7E00
    · rw [if_pos h1]
    · rw [if_neg h1]
      apply ih
      obtain ⟨w, hw, hbad⟩ := h
      rcases List.mem_cons.mp hw with he | hm
      · exact absurd (he ▸ h1) (by simpa using hbad)
      · exact ⟨w, hm, hbad⟩

theorem infBits_ok_of_valid :
    ∀ (l : List Nat) (j acc : Nat),
      (∀ u ∈ l, u &&& EXPONENT_MASK = INF_BITS ∧ u &&& MANTISSA_MASK = 0) →
      ∃ b, infBits l j acc = .ok b := by
  intro l
  induction l with
  | nil => intro j acc _; exact ⟨acc, rfl⟩
  | cons u rest ih =>
    intro j acc hval
    have hu := hval u (by simp)
    rw [infBits, if_neg (by simp [hu.1]), if_neg (by simp [hu.2])]
    have hrest : ∀ u ∈ rest, u &&& EXPONENT_MASK = INF_BITS ∧ u &&& MANTISSA_MASK = 0 :=
      fun w hw => hval w (by simp [hw])
    by_cases hs : u &&& SIGN_BIT ≠ 0
    · rw [if_pos hs]
      exact ih _ _ hrest
    · rw [if_neg hs]
      exact ih _ _ hrest

theorem infBits_err_notInf :
    ∀ (pre : List Nat) (v : Nat) (rest : List Nat) (j acc : Nat),
      (∀ u ∈ pre, u &&& EXPONENT_MASK = INF_BITS ∧ u &&& MANTISSA_MASK = 0) →
      v &&& EXPONENT_MASK ≠ INF_BITS →
      infBits (pre ++ v :: rest) j acc = .error .notInfinity := by
  intro pre
  induction pre with
  | nil =>
    intro v rest j acc _ hv
    rw [List.nil_append, infBits, if_pos hv]
  | cons u pre' ih =>
    intro v rest j acc hval hv
    have hu := hval u (by simp)
    rw [List.cons_append, infBits, if_neg (by simp [hu.1]), if_neg (by simp [hu.2])]
    have hpre' : ∀ w ∈ pre', w &&& EXPONENT_MASK = INF_BITS ∧ w &&& MANTISSA_MASK = 0 :=
      fun w hw => hval w (by simp [hw])
    by_cases hs : u &&& SIGN_BIT ≠ 0
    · rw [if_pos hs]
      exact ih v rest _ _ hpre' hv
    · rw [if_neg hs]
      exact ih v rest _ _ hpre' hv

theorem infBits_err_nan :
    ∀ (pre : List Nat) (v : Nat) (rest : List Nat) (j acc : Nat),
      (∀ u ∈ pre, u &&& EXPONENT_MASK = INF_BITS ∧ u &&& MANTISSA_MASK = 0) →
      v &&& EXPONENT_MASK = INF_BITS → v &&& MANTISSA_MASK ≠ 0 →
      infBits (pre ++ v :: rest) j acc = .error .unexpectedNan := by
  intro pre
  induction pre with
  | nil =>
    intro v rest j acc _ hv1 hv2
    rw [List.nil_append, infBits, if_neg (by simp [hv1]), if_pos hv2]
  | cons u pre' ih =>
    intro v rest j acc hval hv1 hv2
    have hu := hval u (by simp)
    rw [List.cons_append, infBits, if_neg (by simp [hu.1]), if_neg (by simp [hu.2])]
    have hpre' : ∀ w ∈ pre', w &&& EXPONENT_MASK = INF_BITS ∧ w &&& MANTISSA_MASK = 0 :=
      fun w hw => hval w (by simp [hw])
    by_cases hs : u &&& SIGN_BIT ≠ 0
    · rw [if_pos hs]
      exact ih v rest _ _ hpre' hv1 hv2
    · rw [if_neg hs]
      exact ih v rest _ _ hpre' hv1 hv2

theorem from_infGroups_err :
    ∀ (g : Nat) (pre : List Nat) (v : Nat) (post : List Nat),
      (∀ u ∈ pre, u &&& EXPONENT_MASK = INF_BITS ∧ u &&& MANTISSA_MASK = 0) →
      pre.length + 1 + post.length = 8 * g →
      (v &&& EXPONENT_MASK ≠ INF_BITS →
        from_infGroups g (pre ++ v :: post) = .error .notInfinity) ∧
      (v &&& EXPONENT_MASK = INF_BITS → v &&& MANTISSA_MASK ≠ 0 →
        from_infGroups g (pre ++ v :: post) = .error .unexpectedNan) := by
  intro g
  induction g with
  | zero =>
    intro pre v post hval hlen
    omega
  | succ g ih =>
    intro pre v post hval hlen
    by_cases hp : 8 ≤ pre.length
    · have htake : (pre ++ v :: post).take 8 = pre.take 8 :=
        List.take_append_of_le_length hp
      have hdrop : (pre ++ v :: post).drop 8 = pre.drop 8 ++ v :: post :=
        List.drop_append_of_le_length hp
      obtain ⟨b, hb⟩ := infBits_ok_of_valid (pre.take 8) 0 0
        (fun w hw => hval w (List.mem_of_mem_take hw))
      have hpre' : ∀ w ∈ pre.drop 8, w &&& EXPONENT_MASK = INF_BITS ∧ w &&& MANTISSA_MASK = 0 :=
        fun w hw => hval w (List.mem_of_mem_drop hw)
      have hlen' : (pre.drop 8).length + 1 + post.length = 8 * g := by
        rw [List.length_drop]; omega
      obtain ⟨ih1, ih2⟩ := ih (pre.drop 8) v post hpre' hlen'
      constructor
      · intro hv
        rw [from_infGroups, htake, hb, hdrop, ih1 hv]
      · intro hv1 hv2
        rw [from_infGroups, htake, hb, hdrop, ih2 hv1 hv2]
    · have htake : (pre ++ v :: post).take 8 = pre ++ v :: post.take (7 - pre.length) := by
        rw [List.take_append_eq_append_take, List.take_of_length_le (by omega),
            show 8 - pre.length = (7 - pre.length) + 1 by omega, List.take_succ_cons]
      constructor
      · intro hv
        rw [from_infGroups, htake, infBits_err_notInf pre v _ 0 0 hval hv]
      · intro hv1 hv2
        rw [from_infGroups, htake, infBits_err_nan pre v _ 0 0 hval hv1 hv2]

theorem from_subLoop_err_notSub :
    ∀ (pre : List Nat) (v : Nat) (post result : List Nat) (bitPos : Nat),
      (∀ u ∈ pre, u &&& EXPONENT_MASK = 0 ∧ u &&& SIGN_BIT = 0) →
      v &&& EXPONENT_MASK ≠ 0 →
      from_subLoop (pre ++ v :: post) result bitPos = .error .notSubnormal := by
  intro pre
  induction pre with
  | nil =>
    intro v post result bitPos _ hv
    rw [List.nil_append, from_subLoop, if_pos hv]
  | cons u pre' ih =>
    intro v post result bitPos hval hv
    have hu := hval u (by simp)
    rw [List.cons_append, from_subLoop, if_neg (by simp [hu.1]), if_neg (by simp [hu.2])]
    exact ih v post _ _ (fun w hw => hval w (by simp [hw])) hv

theorem from_subLoop_err_sign :
    ∀ (pre : List Nat) (v : Nat) (post result : List Nat) (bitPos : Nat),
      (∀ u ∈ pre, u &&& EXPONENT_MASK = 0 ∧ u &&& SIGN_BIT = 0) →
      v &&& EXPONENT_MASK = 0 → v &&& SIGN_BIT ≠ 0 →
      from_subLoop (pre ++ v :: post) result bitPos = .error .wrongSign := by
  intro pre
  induction pre with
  | nil =>
    intro v post result bitPos _ hv1 hv2
    rw [List.nil_append, from_subLoop, if_neg (by simp [hv1]), if_pos hv2]
  | cons u pre' ih =>
    intro v post result bitPos hval hv1 hv2
    have hu := hval u (by simp)
    rw [List.cons_append, from_subLoop, if_neg (by simp [hu.1]), if_neg (by simp [hu.2])]
    exact ih v post _ _ (fun w hw => hval w (by simp [hw])) hv1 hv2

/-- Claim C5: each decoder rejects a structurally invalid unit with the
specific error the spec names.  `from_zero` fails `ImpureZero` on any unit
other than `0x0000`/`0x8000`; `from_inf` fails `NotInfinity` when the
offending unit's exponent field is not all-ones and `UnexpectedNan` when the
exponent is all-ones but the mantissa is nonzero; `from_nan` fails
`NotQuietNan` on a unit without the full quiet-NaN top bits; `from_subnormal`
fails `NotSubnormal` on a nonzero exponent field and `WrongSign` on a set
sign bit with zero exponent (negative zero included).  For the two-error
decoders the offending unit is the first invalid one (all units before it
pass their checks); units after it are arbitrary. -/
theorem claim_C5 :
    (∀ units : List Nat, units.length % 8 = 0 →
      (∃ u ∈ units, u ≠ 0 ∧ u ≠ SIGN_BIT) →
      from_zero (pack16les units) = .error .impureZero) ∧
    (∀ (pre : List Nat) (v : Nat) (post : List Nat),
      (∀ u ∈ pre, u &&& EXPONENT_MASK = INF_BITS ∧ u &&& MANTISSA_MASK = 0) →
      (pre.length + 1 + post.length) % 8 = 0 →
      (v &&& EXPONENT_MASK ≠ INF_BITS →
        from_inf (pack16les (pre ++ v :: post)) = .error .notInfinity) ∧
      (v &&& EXPONENT_MASK = INF_BITS → v &&& MANTISSA_MASK ≠ 0 →
        from_inf (pack16les (pre ++ v :: post)) = .error .unexpectedNan)) ∧
    (∀ units : List Nat, (∃ u ∈ units, u &&& 0x7E00 ≠ 0x7E00) →
      from_nan (pack16les units) = .error .notQuietNan) ∧
    (∀ (pre : List Nat) (v : Nat) (post : List Nat),
      (∀ u ∈ pre, u &&& EXPONENT_MASK = 0 ∧ u &&& SIGN_BIT = 0) →
      (v &&& EXPONENT_MASK ≠ 0 →
        from_subnormal (pack16les (pre ++ v :: post)) = .error .notSubnormal) ∧
      (v &&& EXPONENT_MASK = 0 → v &&& SIGN_BIT ≠ 0 →
        from_subnormal (pack16les (pre ++ v :: post)) = .error .wrongSign)) := by
  refine ⟨?_, ?_, ?_, ?_⟩
  · intro units hlen hbad
    have hl := pack16les_length units
    rw [from_zero, if_neg (by omega), if_neg (by omega), unpack16le_pack16les]
    exact from_zeroGroups_err ((pack16les units).length / 2 / 8) units (by omega) hbad
  · intro pre v post hval hlen
    have hm : (pre ++ v :: post).length = pre.length + 1 + post.length := by
      simp; omega
    have hl := pack16les_length (pre ++ v :: post)
    obtain ⟨h1, h2⟩ := from_infGroups_err ((pack16les (pre ++ v :: post)).length / 2 / 8)
      pre v post hval (by omega)
    constructor
    · intro hv
      rw [from_inf, if_neg (by omega), if_neg (by omega), unpack16le_pack16les]
      exact h1 hv
    · intro hv1 hv2
      rw [from_inf, if_neg (by omega), if_neg (by omega), unpack16le_pack16les]
      exact h2 hv1 hv2
  · intro units hbad
    have hl := pack16les_length units
    have herr := from_nanLoop_err ((pack16les units).length / 2 * 9) units
      (List.replicate (((pack16les units).length / 2 * 9 + 7) / 8) 0) 0 hbad
    rw [from_nan, if_neg (by omega), unpack16le_pack16les]
    simp [herr]
  · intro pre v post hval
    have hl := pack16les_length (pre ++ v :: post)
    constructor
    · intro hv
      have herr := from_subLoop_err_notSub pre v post
        (List.replicate (((pack16les (pre ++ v :: post)).length / 2 * 10 + 7) / 8) 0) 0 hval hv
      rw [from_subnormal, if_neg (by omega), unpack16le_pack16les]
      simp [herr]
    · intro hv1 hv2
      have herr := from_subLoop_err_sign pre v post
        (List.replicate (((pack16les (pre ++ v :: post)).length / 2 * 10 + 7) / 8) 0) 0 hval hv1 hv2
      rw [from_subnormal, if_neg (by omega), unpack16le_pack16les]
      simp [herr]

theorem claim_C5_witness :
    (([5, 0, 0, 0, 0, 0, 0, 0] : List Nat).length % 8 = 0 ∧
      (∃ u ∈ ([5, 0, 0, 0, 0, 0, 0, 0] : List Nat), u ≠ 0 ∧ u ≠ SIGN_BIT) ∧
      from_zero (pack16les [5, 0, 0, 0, 0, 0, 0, 0]) = .error .impureZero) ∧
    from_inf (pack16les (([0x7C00] : List Nat) ++
      0 :: [0xFC00, 0x7C00, 0x7C00, 0x7C00, 0x7C00, 0x7C00])) = .error .notInfinity ∧
    from_inf (pack16les (([] : List Nat) ++
      0x7C01 :: [0x7C00, 0x7C00, 0x7C00, 0x7C00, 0x7C00, 0x7C00, 0x7C00])) =
        .error .unexpectedNan ∧
    from_nan (pack16les [0x1234]) = .error .notQuietNan ∧
    from_subnormal (pack16les (([3] : List Nat) ++ 0x7C00 :: [])) = .error .notSubnormal ∧
    from_subnormal (pack16les (([] : List Nat) ++ 0x8000 :: [])) = .error .wrongSign :=
  ⟨⟨by decide, by decide, claim_C5.1 [5, 0, 0, 0, 0, 0, 0, 0] (by decide) (by decide)⟩,
   (claim_C5.2.1 [0x7C00] 0 [0xFC00, 0x7C00, 0x7C00, 0x7C00, 0x7C00, 0x7C00]
     (by decide) (by decide)).1 (by decide),
   (claim_C5.2.1 [] 0x7C01 [0x7C00, 0x7C00, 0x7C00, 0x7C00, 0x7C00, 0x7C00, 0x7C00]
     (by decide) (by decide)).2 (by decide) (by decide),
   claim_C5.2.2.1 [0x1234] (by decide),
   (claim_C5.2.2.2 [3] 0x7C00 [] (by decide)).1 (by decide),
   (claim_C5.2.2.2 [] 0x8000 [] (by decide)).2 (by decide) (by decide)⟩

/-! ## Sign-bit insensitivity of the Nan decoder -/

theorem or_and_mask (a b m : Nat) : (a ||| b) &&& m = (a &&& m) ||| (b &&& m) := by
  apply Nat.eq_of_testBit_eq
  intro i
  rw [Nat.testBit_and, Nat.testBit_or, Nat.testBit_or, Nat.testBit_and, Nat.testBit_and]
  cases a.testBit i <;> cases b.testBit i <;> cases m.testBit i <;> rfl

theorem or_sign_and_quiet (u : Nat) : (u ||| 0x8000) &&& 0x7E00 = u &&& 0x7E00 := by
  rw [or_and_mask, show (0x8000 : Nat) &&& 0x7E00 = 0 from by decide, Nat.or_zero]

theorem or_sign_and_payload (u : Nat) :
    (u ||| 0x8000) &&& PAYLOAD_MASK = u &&& PAYLOAD_MASK := by
  unfold PAYLOAD_MASK
  rw [or_and_mask, show (0x8000 : Nat) &&& 0x1FF = 0 from by decide, Nat.or_zero]

theorem from_nanLoop_map_sign (totalBits : Nat) :
    ∀ (units result : List Nat) (bitPos : Nat),
      from_nanLoop totalBits (units.map (fun u => u ||| 0x8000)) result bitPos =
        from_nanLoop totalBits units result bitPos := by
  intro units
  induction units with
  | nil => intro result bitPos; rfl
  | cons u rest ih =>
    intro result bitPos
    rw [List.map_cons, from_nanLoop, from_nanLoop, or_sign_and_quiet, or_sign_and_payload]
    by_cases h : u &&& 0x7E00 ≠ 0x7E00
    · rw [if_pos h, if_pos h]
    · rw [if_neg h, if_neg h]
      exact ih _ _

theorem unframe_error_kind (bs : List Nat) (e : Err) :
    unframe bs = .error e → e = .corruptedHeader := by
  intro h
  rw [unframe] at h
  split_ifs at h <;> cases h <;> rfl

set_option maxRecDepth 1000000 in
/-- Claim C9: `from_nan` never inspects the sign bit.  It fails `NotQuietNan`
exactly when some unit lacks the `0x7E00` top bits; setting the sign bit on
every unit of a stream leaves the decode result unchanged (so `0xFE00`-style
units, which `to_nan` never produces, are accepted); and auto-detection
classifies a first unit of the form `0xFE00 ||| p` as Nan. -/
theorem claim_C9 :
    (∀ units : List Nat,
      from_nan (pack16les units) = .error .notQuietNan ↔
        ∃ u ∈ units, u &&& 0x7E00 ≠ 0x7E00) ∧
    (∀ units : List Nat,
      from_nan (pack16les (units.map (fun u => u ||| 0x8000))) =
        from_nan (pack16les units)) ∧
    (∀ p : Nat, p < 512 → detect (0xFE00 ||| p) = .ok "nan") ∧
    (∀ dwl : List Nat, ∀ u ∈ to_nanUnits dwl, u &&& 0x8000 = 0) := by
  refine ⟨?_, ?_, ?_, ?_⟩
  · intro units
    constructor
    · intro h
      by_contra hno
      push_neg at hno
      have hval : ∀ u ∈ units, u &&& 0x7E00 = 0x7E00 := hno
      obtain ⟨B, hB, _, _, _⟩ := from_nan_valid units hval
      rw [hB] at h
      cases unframe_error_kind B _ h
    · intro hbad
      have hl := pack16les_length units
      have herr := from_nanLoop_err ((pack16les units).length / 2 * 9) units
        (List.replicate (((pack16les units).length / 2 * 9 + 7) / 8) 0) 0 hbad
      rw [from_nan, if_neg (by omega), unpack16le_pack16les]
      simp [herr]
  · intro units
    have hl1 : (pack16les (units.map (fun u => u ||| 0x8000))).length = 2 * units.length := by
      rw [pack16les_length, List.length_map]
    have hl2 : (pack16les units).length = 2 * units.length := pack16les_length units
    rw [from_nan, from_nan, if_neg (by omega), if_neg (by omega),
        unpack16le_pack16les, unpack16le_pack16les, hl1, hl2, from_nanLoop_map_sign]
  · decide
  · intro dwl u hu
    rw [to_nanUnits] at hu
    obtain ⟨k, _, hk⟩ := List.mem_map.mp hu
    rw [← hk]
    have hlt := readBits_lt dwl (9 * k) 9
    have : ∀ p < 512, ((0x7E00 : Nat) ||| p) &&& 0x8000 = 0 := by decide
    exact this _ (by norm_num at hlt ⊢; exact hlt)

theorem claim_C9_witness :
    ((5 : Nat) < 512 ∧ detect (0xFE00 ||| 5) = .ok "nan") ∧
    from_nan (pack16les (([0x7E05] : List Nat).map (fun u => u ||| 0x8000))) =
      from_nan (pack16les [0x7E05]) ∧
    (from_nan (pack16les ([0x0012] : List Nat)) = .error .notQuietNan ↔
      ∃ u ∈ ([0x0012] : List Nat), u &&& 0x7E00 ≠ 0x7E00) :=
  ⟨⟨by decide, claim_C9.2.2.1 5 (by decide)⟩,
   claim_C9.2.1 [0x7E05],
   claim_C9.1 [0x0012]⟩

/-! ## Auto-detection lemmas -/

theorem firstUnit_pack16les (us : List Nat) (h : us ≠ []) :
    firstUnit (pack16les us) = us.getD 0 0 := by
  cases us with
  | nil => exact absurd rfl h
  | cons u rest =>
    show firstUnit (u % 256 :: u / 256 :: pack16les rest) = u
    rw [firstUnit]
    simp [List.getD]
    omega

theorem zeroUnitsOfByte_getD0 (b : Nat) :
    (zeroUnitsOfByte b).getD 0 0 = if b.testBit 0 then SIGN_BIT else 0 := by
  rw [zeroUnitsOfByte, List.getD_eq_getElem?_getD, List.getElem?_eq_getElem (by simp)]
  simp

theorem infUnitsOfByte_getD0 (b : Nat) :
    (infUnitsOfByte b).getD 0 0 = if b.testBit 0 then INF_BITS ||| SIGN_BIT else INF_BITS := by
  rw [infUnitsOfByte, List.getD_eq_getElem?_getD, List.getElem?_eq_getElem (by simp)]
  simp

set_option maxRecDepth 1000000 in
theorem detect_nan_unit : ∀ p < 512, detect (0x7E00 ||| p) = .ok "nan" := by decide

set_option maxRecDepth 1000000 in
theorem detect_sub_unit : ∀ m < 1024, m ≠ 0 → detect m = .ok "subnormal" := by decide

theorem readBits10_le32 (n : Nat) (data : List Nat) :
    readBits (le32 n ++ data) 0 10 = n % 1024 := by
  have e0 : (le32 n ++ data).getD 0 0 = n % 256 := by simp [le32]
  have e1 : (le32 n ++ data).getD 1 0 = n / 256 % 256 := by simp [le32]
  apply Nat.eq_of_testBit_eq
  intro i
  rw [readBits_testBit, show (1024 : Nat) = 2 ^ 10 from by norm_num,
      Nat.testBit_mod_two_pow]
  by_cases hi : i < 10
  · have hg : getBit (le32 n ++ data) (0 + i) = n.testBit i := by
      rw [Nat.zero_add]
      by_cases hi8 : i < 8
      · rw [getBit, show i / 8 = 0 from by omega, show i % 8 = i from by omega, e0,
            show (256 : Nat) = 2 ^ 8 from by norm_num, Nat.testBit_mod_two_pow]
        simp [hi8]
      · rw [getBit, show i / 8 = 1 from by omega, show i % 8 = i - 8 from by omega, e1]
        have hshift : n / 256 % 256 = (n >>> 8) % 2 ^ 8 := by
          rw [Nat.shiftRight_eq_div_pow]
          norm_num
        rw [hshift, Nat.testBit_mod_two_pow, Nat.testBit_shiftRight,
            show 8 + (i - 8) = i from by omega]
        simp [show i - 8 < 8 by omega]
    rw [hg]
  · simp [hi]

theorem decode_auto_eq (data : List Nat) (m : String) (h2 : 2 ≤ data.length)
    (hdet : detect (firstUnit data) = .ok m) :
    decode data "auto" = decodeDispatch data m := by
  rw [decode, if_pos rfl, if_neg (by omega), hdet]

theorem except_bind_ok (c : List Nat) (f : List Nat → Except Err (List Nat)) :
    (Except.ok c : Except Err (List Nat)).bind f = f c := rfl

/-- Claim C2 counterexample: for the subnormal scheme and the non-empty
plaintext `replicate 1024 0` (length 1024, well under 100 MiB), the first
code unit of the encoded stream is the all-zero unit (the low 10 bits of the
length prefix are `1024 % 1024 = 0`), so auto-detection classifies the
stream as Zero and decoding fails with `MalformedLength` instead of
returning the plaintext. -/
theorem claim_C2_counterexample :
    (encode (List.replicate 1024 0) "subnormal").bind (fun c => decode c "auto") =
      .error .malformedLength ∧
    (encode (List.replicate 1024 0) "subnormal").bind (fun c => decode c "auto") ≠
      .ok (List.replicate 1024 0) := by
  have hn : (List.replicate 1024 (0 : Nat)).length = 1024 := by
    rw [List.length_replicate]
  have hdwl : (le32 (List.replicate 1024 (0 : Nat)).length ++
      List.replicate 1024 (0 : Nat)).length = 1028 := by
    rw [List.length_append, le32_length, hn]
  have henc : encode (List.replicate 1024 0) "subnormal" =
      .ok (pack16les (to_subUnits (le32 (List.replicate 1024 (0 : Nat)).length ++
        List.replicate 1024 0))) := by
    rw [encode_sub, to_subnormal, if_neg (by rw [hn]; norm_num [MAX_INPUT_SIZE])]
  have hWlen : (to_subUnits (le32 (List.replicate 1024 (0 : Nat)).length ++
      List.replicate 1024 0)).length = 823 := by
    rw [to_subUnits_length, hdwl]
  have hclen : (pack16les (to_subUnits (le32 (List.replicate 1024 (0 : Nat)).length ++
      List.replicate 1024 0))).length = 1646 := by
    rw [pack16les_length, hWlen]
  have hfirst : firstUnit (pack16les (to_subUnits
      (le32 (List.replicate 1024 (0 : Nat)).length ++ List.replicate 1024 0))) = 0 := by
    rw [firstUnit_pack16les _ (by intro h; rw [h] at hWlen; exact absurd hWlen (by decide)),
        to_subUnits_getD _ 0 (by rw [hdwl]; norm_num), Nat.mul_zero,
        readBits10_le32, hn]
  have hdecode : decode (pack16les (to_subUnits
      (le32 (List.replicate 1024 (0 : Nat)).length ++ List.replicate 1024 0))) "auto" =
      .error .malformedLength := by
    rw [decode_auto_eq _ "zero" (by omega) (by rw [hfirst]; decide)]
    have hdd : decodeDispatch (pack16les (to_subUnits
        (le32 (List.replicate 1024 (0 : Nat)).length ++ List.replicate 1024 0))) "zero" =
        from_zero (pack16les (to_subUnits
        (le32 (List.replicate 1024 (0 : Nat)).length ++ List.replicate 1024 0))) := by
      rw [decodeDispatch, if_pos rfl]
    rw [hdd, from_zero, if_neg (by omega), if_pos (by omega)]
  rw [henc, except_bind_ok, hdecode]
  exact ⟨rfl, fun h => Except.noConfusion h⟩

/-- Claim C2 (amended): for every non-empty plaintext up to 100 MiB,
`decode (encode p s) "auto" = p` for the zero, inf and nan schemes; for the
subnormal scheme this holds whenever `len p % 1024 ≠ 0` (when
`len p % 1024 = 0` the first unit is the all-zero unit, which the detector
classifies as Zero — see the counterexample). -/
theorem claim_C2_amended (p : List Nat) (hbytes : ∀ b ∈ p, b < 256)
    (hne : p ≠ []) (hsize : p.length ≤ MAX_INPUT_SIZE) :
    (∃ c, encode p "zero" = .ok c ∧ decode c "auto" = .ok p) ∧
    (∃ c, encode p "inf" = .ok c ∧ decode c "auto" = .ok p) ∧
    (∃ c, encode p "nan" = .ok c ∧ decode c "auto" = .ok p) ∧
    (p.length % 1024 ≠ 0 →
      ∃ c, encode p "subnormal" = .ok c ∧ decode c "auto" = .ok p) := by
  have hdwl_len : (le32 p.length ++ p).length = p.length + 4 := by
    simp [le32_length]; omega
  have hplen : 1 ≤ p.length := by
    cases p with
    | nil => exact absurd rfl hne
    | cons b p' => simp
  refine ⟨?_, ?_, ?_, ?_⟩
  · -- zero
    obtain ⟨b, p', rfl⟩ : ∃ b p', p = b :: p' := by
      cases p with
      | nil => exact absurd rfl hne
      | cons b p' => exact ⟨b, p', rfl⟩
    obtain ⟨hz1, hz2⟩ := from_zero_to_zero (b :: p') hbytes hsize
    refine ⟨pack16les (to_zeroUnits (b :: p')), by rw [encode_zero, hz1], ?_⟩
    have hulen := to_zeroUnits_length (b :: p')
    have hlen : (pack16les (to_zeroUnits (b :: p'))).length = 16 * (b :: p').length := by
      rw [pack16les_length, hulen]; omega
    have hfirst : firstUnit (pack16les (to_zeroUnits (b :: p'))) =
        if b.testBit 0 then SIGN_BIT else 0 := by
      rw [firstUnit_pack16les _ (by intro h; rw [h] at hulen; simp at hulen)]
      rw [show to_zeroUnits (b :: p') = zeroUnitsOfByte b ++ to_zeroUnits p' from rfl,
          List.getD_append _ _ _ _ (by rw [zeroUnitsOfByte_length]; omega),
          zeroUnitsOfByte_getD0]
    have hdet : detect (firstUnit (pack16les (to_zeroUnits (b :: p')))) = .ok "zero" := by
      rw [hfirst]
      by_cases hb : b.testBit 0
      · rw [if_pos hb]; decide
      · rw [if_neg hb]; decide
    rw [decode_auto_eq _ "zero" (by simp at hlen ⊢; omega) hdet, decodeDispatch, if_pos rfl]
    exact hz2
  · -- inf
    obtain ⟨b, p', rfl⟩ : ∃ b p', p = b :: p' := by
      cases p with
      | nil => exact absurd rfl hne
      | cons b p' => exact ⟨b, p', rfl⟩
    obtain ⟨hi1, hi2⟩ := from_inf_to_inf (b :: p') hbytes hsize
    refine ⟨pack16les (to_infUnits (b :: p')), by rw [encode_inf, hi1], ?_⟩
    have hulen := to_infUnits_length (b :: p')
    have hlen : (pack16les (to_infUnits (b :: p'))).length = 16 * (b :: p').length := by
      rw [pack16les_length, hulen]; omega
    have hfirst : firstUnit (pack16les (to_infUnits (b :: p'))) =
        if b.testBit 0 then INF_BITS ||| SIGN_BIT else INF_BITS := by
      rw [firstUnit_pack16les _ (by intro h; rw [h] at hulen; simp at hulen)]
      rw [show to_infUnits (b :: p') = infUnitsOfByte b ++ to_infUnits p' from rfl,
          List.getD_append _ _ _ _ (by rw [infUnitsOfByte_length]; omega),
          infUnitsOfByte_getD0]
    have hdet : detect (firstUnit (pack16les (to_infUnits (b :: p')))) = .ok "inf" := by
      rw [hfirst]
      by_cases hb : b.testBit 0
      · rw [if_pos hb]; decide
      · rw [if_neg hb]; decide
    rw [decode_auto_eq _ "inf" (by simp at hlen ⊢; omega) hdet, decodeDispatch,
        if_neg (by decide), if_pos rfl]
    exact hi2
  · -- nan
    obtain ⟨hn1, hn2⟩ := from_nan_to_nan p hbytes hsize
    refine ⟨pack16les (to_nanUnits (le32 p.length ++ p)), by rw [encode_nan, hn1], ?_⟩
    have hulen := to_nanUnits_length (le32 p.length ++ p)
    rw [hdwl_len] at hulen
    have hlen : (pack16les (to_nanUnits (le32 p.length ++ p))).length =
        2 * ((8 * (p.length + 4) + 8) / 9) := by
      rw [pack16les_length, hulen]
    have hfirst : firstUnit (pack16les (to_nanUnits (le32 p.length ++ p))) =
        NAN_QUIET ||| readBits (le32 p.length ++ p) 0 9 := by
      rw [firstUnit_pack16les _ (by intro h; rw [h] at hulen; simp at hulen; omega),
          to_nanUnits_getD _ 0 (by rw [hdwl_len]; omega), Nat.mul_zero]
    have hdet : detect (firstUnit (pack16les (to_nanUnits (le32 p.length ++ p)))) =
        .ok "nan" := by
      rw [hfirst]
      have hlt := readBits_lt (le32 p.length ++ p) 0 9
      exact detect_nan_unit _ (by norm_num at hlt ⊢; exact hlt)
    rw [decode_auto_eq _ "nan" (by omega) hdet, decodeDispatch,
        if_neg (by decide), if_neg (by decide), if_pos rfl]
    exact hn2
  · -- subnormal
    intro h1024
    obtain ⟨hs1, hs2⟩ := from_sub_to_sub p hbytes hsize
    refine ⟨pack16les (to_subUnits (le32 p.length ++ p)), by rw [encode_sub, hs1], ?_⟩
    have hulen := to_subUnits_length (le32 p.length ++ p)
    rw [hdwl_len] at hulen
    have hlen : (pack16les (to_subUnits (le32 p.length ++ p))).length =
        2 * ((8 * (p.length + 4) + 9) / 10) := by
      rw [pack16les_length, hulen]
    have hfirst : firstUnit (pack16les (to_subUnits (le32 p.length ++ p))) =
        p.length % 1024 := by
      rw [firstUnit_pack16les _ (by intro h; rw [h] at hulen; simp at hulen; omega),
          to_subUnits_getD _ 0 (by rw [hdwl_len]; omega), Nat.mul_zero, readBits10_le32]
    have hdet : detect (firstUnit (pack16les (to_subUnits (le32 p.length ++ p)))) =
        .ok "subnormal" := by
      rw [hfirst]
      exact detect_sub_unit _ (by omega) h1024
    rw [decode_auto_eq _ "subnormal" (by omega) hdet, decodeDispatch,
        if_neg (by decide), if_neg (by decide), if_neg (by decide), if_pos rfl]
    exact hs2

theorem claim_C2_amended_witness :
    (∀ b ∈ ([7] : List Nat), b < 256) ∧ ([7] : List Nat) ≠ [] ∧
    ([7] : List Nat).length ≤ MAX_INPUT_SIZE ∧ ([7] : List Nat).length % 1024 ≠ 0 ∧
    ((∃ c, encode [7] "zero" = .ok c ∧ decode c "auto" = .ok [7]) ∧
     (∃ c, encode [7] "inf" = .ok c ∧ decode c "auto" = .ok [7]) ∧
     (∃ c, encode [7] "nan" = .ok c ∧ decode c "auto" = .ok [7]) ∧
     (([7] : List Nat).length % 1024 ≠ 0 →
       ∃ c, encode [7] "subnormal" = .ok c ∧ decode c "auto" = .ok [7])) :=
  ⟨by decide, by decide, by decide, by decide,
   claim_C2_amended [7] (by decide) (by decide) (by decide)⟩
